import Mathlib

/-!
Verification of the trie store (src/trie/trie.c) against its specification.

The C sources are embedded shallowly: the heap of `node_t` records linked by
`child` pointers becomes an inductive tree, and each store-mutating C function
becomes a pure function returning the result flag together with the new store
value.  Machine `int` values become `Int`; the `char` key characters become
`Char` compared through their code points, exactly as C compares them.
Memory allocation is assumed to succeed (the spec notes that the
allocation-failure error kind disappears in a garbage-collected target),
and `free` has no functional content in a value semantics.
-/

/-- One element of the trie: `node_t` from trie.c.  The C struct holds an
array `child[26]` of owned pointers, the character `key` stored at this
level, the payload `value`, and the flag `has_value`. -/
inductive Node : Type where
  | mk (child : Fin 26 → Option Node) (key : Char) (value : Int) (hasValue : Bool)

/-- The `child` pointer array of a node. -/
def Node.child : Node → Fin 26 → Option Node
  | mk c _ _ _ => c

/-- The `key` character field of a node (write-only in the C code). -/
def Node.keyc : Node → Char
  | mk _ k _ _ => k

/-- The `value` field of a node. -/
def Node.value : Node → Int
  | mk _ _ v _ => v

/-- The `has_value` flag of a node. -/
def Node.hasValue : Node → Bool
  | mk _ _ _ hv => hv

/-- A freshly allocated, `memset`-zeroed node: all child pointers NULL,
`key` 0, `value` 0, `has_value` FALSE. -/
def zeroNode : Node := Node.mk (fun _ => none) (Char.ofNat 0) 0 false

/-- Reading `node->child[i]` for a machine integer index `i`.  In every
defined execution of the C code the index is in range (it comes from
`key_to_index` applied to a permitted character); out-of-range reads,
which would be undefined behavior in C, are totalized to `none`. -/
def childAt (n : Node) (i : Nat) : Option Node :=
  if h : i < 26 then n.child ⟨i, h⟩ else none

/-- Writing `node->child[i] = x` (other fields unchanged).  Out-of-range
writes, undefined behavior in C and unreachable behind `key_permitted`,
are totalized to a no-op. -/
def setChild (n : Node) (i : Nat) (x : Option Node) : Node :=
  if h : i < 26 then Node.mk (Function.update n.child ⟨i, h⟩ x) n.keyc n.value n.hasValue
  else n

/-- Function `key_to_index` from trie.c: the character code minus the code
of the letter a (97), used as an array index. -/
def key_to_index (c : Char) : Nat := c.toNat - 97

/-- Function `key_permitted` from trie.c: every character of the key must lie in
the range a to z.  Note that the loop body never runs for the empty string, so
the empty key is permitted by this check. -/
def key_permitted : List Char → Bool
  | [] => true
  | c :: rest => if 'a' ≤ c ∧ c ≤ 'z' then key_permitted rest else false

/-- Function `node_has_children` from trie.c: the loop scans the 26 slots for a
non-NULL pointer. -/
def node_has_children (n : Node) : Bool :=
  decide (∃ i, (n.child i).isSome)

/-- Function `node_has_multiple_children` from trie.c: the loop counts non-NULL
slots and reports whether the count exceeds one; the count of occupied
slots is the cardinality of the set of occupied slots. -/
def node_has_multiple_children (n : Node) : Bool :=
  decide (1 < (Finset.univ.filter fun i : Fin 26 => (n.child i).isSome).card)

/-- Struct `trie_s` from trie.c: the store owns the always-allocated level-0 node
`trie->child`. -/
structure Trie where
  child : Node

/-- Function `create_trie` from trie.c: allocate the store and its zeroed root node
(allocation assumed to succeed). -/
def create_trie : Trie := ⟨zeroNode⟩

/-- The walk of `add_to_trie`: descend one character at a time, allocating
a zeroed node with `node->key = key[i]` whenever the needed slot is NULL;
after the last character set `value` and `has_value` on the final node. -/
def addNode : Node → List Char → Int → Node
  | n, [], v => Node.mk n.child n.keyc v true
  | n, c :: rest, v =>
    match childAt n (key_to_index c) with
    | none =>
      setChild n (key_to_index c)
        (some (addNode (Node.mk (fun _ => none) c 0 false) rest v))
    | some m => setChild n (key_to_index c) (some (addNode m rest v))

/-- Function `add_to_trie` from trie.c.  The C function returns a success flag and
mutates the store in place; here it returns the flag together with the new
store.  The NULL-trie guard has no counterpart (a `Trie` value always
exists), and allocation is assumed to succeed. -/
def add_to_trie (key : List Char) (v : Int) (t : Trie) : Bool × Trie :=
  if key_permitted key then (true, ⟨addNode t.child key v⟩) else (false, t)

/-- The walk of `lookup_in_trie`: follow one slot per character, fail on a
NULL slot, and after the last character fail unless `has_value` is set. -/
def lookupNode : Node → List Char → Option Int
  | n, [] => if n.hasValue then some n.value else none
  | n, c :: rest =>
    match childAt n (key_to_index c) with
    | none => none
    | some m => lookupNode m rest

/-- Function `lookup_in_trie` from trie.c.  The C function reports success through
its return flag and the value through an out-parameter; the pair is an
`Option Int` here. -/
def lookup_in_trie (t : Trie) (key : List Char) : Option Int :=
  if key_permitted key then lookupNode t.child key else none

/-- The loop state of `delete_from_trie`: `index_of_last_node_with_value`
(initialized to -1), `starting_index_being_freed`, and
`index_being_freed_changed`.  In C `starting_index_being_freed` starts
uninitialized; it is assigned on the first iteration because the changed
flag starts TRUE, and only a delete of the empty key can read it
unassigned.  The model gives it initial value 0. -/
structure ScanSt where
  j : Int
  s : Nat
  changed : Bool

/-- The recording loop of `delete_from_trie`: walk the key, fail on a NULL
slot, and track the deepest node with a value or several children among
all visited nodes except the terminal one, together with the slot index at
which the chain to be freed hangs off that node. -/
def delScan : Node → List Char → Nat → ScanSt → Option (Node × ScanSt)
  | n, [], _, st => some (n, st)
  | n, c :: rest, i, st =>
    let st1 : ScanSt := if st.changed then ⟨st.j, key_to_index c, false⟩ else st
    match childAt n (key_to_index c) with
    | none => none
    | some m =>
      let st2 : ScanSt :=
        if (m.hasValue || node_has_multiple_children m) && !rest.isEmpty then
          ⟨(i : Int), st1.s, true⟩
        else st1
      delScan m rest (i + 1) st2

/-- The image of the in-place update `node->has_value = FALSE;
node->value = 0` performed on the terminal node of `key` by
`delete_from_trie` when that node still has children: rebuild the path
with the terminal flags cleared.  (If the path is broken the tree is
returned unchanged; `delete_from_trie` only reaches this after the scan
proved the path complete.) -/
def clearValueAt : Node → List Char → Node
  | n, [] => Node.mk n.child n.keyc 0 false
  | n, c :: rest =>
    match childAt n (key_to_index c) with
    | none => n
    | some m => setChild n (key_to_index c) (some (clearValueAt m rest))

/-- The image of the in-place update `ancestor->child[s] = NULL` performed
by the pruning branch of `delete_from_trie` on the node reached by
`prefix`: rebuild the path to that node with its slot `s` cleared, which
detaches (frees) the recorded chain hanging below it. -/
def clearBelow : Node → List Char → Nat → Node
  | n, [], s => setChild n s none
  | n, c :: rest, s =>
    match childAt n (key_to_index c) with
    | none => n
    | some m => setChild n (key_to_index c) (some (clearBelow m rest s))

/-- Function `delete_from_trie` from trie.c.  After the permitted check and the
recording loop (`delScan`), the terminal node must carry a value; then
either the terminal still has children and only its value flag is
cleared, or the chain strictly below the deepest recorded node with a
value or several children (below the root slot of the first character
when there is none, `index_of_last_node_with_value < 0`) is freed and
detached.  For the empty key the pruning branch reads the uninitialized
`starting_index_being_freed` in C (undefined behavior, noted as an open
question in the spec); the model reads its initial value 0 there. -/
def delete_from_trie (t : Trie) (key : List Char) : Bool × Trie :=
  if !key_permitted key then (false, t)
  else
    match delScan t.child key 0 ⟨-1, 0, true⟩ with
    | none => (false, t)
    | some (tn, st) =>
      if !tn.hasValue then (false, t)
      else if node_has_children tn then (true, ⟨clearValueAt t.child key⟩)
      else if st.j < 0 then (true, ⟨setChild t.child st.s none⟩)
      else (true, ⟨clearBelow t.child (List.take (st.j.toNat + 1) key) st.s⟩)

/-- The assertion loop of `destroy_trie` from trie.c: every slot of the
root node must be NULL (the whole check; the subsequent frees have no
functional content). -/
def destroy_trie_assert_ok (t : Trie) : Bool :=
  (List.finRange 26).all fun i => (t.child.child i).isNone

/-- A character inside the key domain of the spec: the letters a to z. -/
def ValidChar (c : Char) : Prop := 'a' ≤ c ∧ c ≤ 'z'

/-- A key inside the key domain of the spec: non-empty, lowercase-only. -/
def ValidKey (k : List Char) : Prop := k ≠ [] ∧ ∀ c ∈ k, ValidChar c

instance : DecidablePred ValidChar := fun c => by unfold ValidChar; infer_instance

instance : DecidablePred ValidKey := fun k => by unfold ValidKey; infer_instance

/-- Following a chain of child pointers along the characters of a key:
the node reached, or `none` when some slot on the way is NULL.  Used to
state which nodes a key path visits. -/
def walkPath : Node → List Char → Option Node
  | n, [] => some n
  | n, c :: rest =>
    match childAt n (key_to_index c) with
    | none => none
    | some m => walkPath m rest

/-- Following a chain of child pointers by raw slot indices: every node of
the tree is named by exactly one such index path, so node presence is
expressed through `walkIdx`. -/
def walkIdx : Node → List (Fin 26) → Option Node
  | n, [] => some n
  | n, i :: rest =>
    match n.child i with
    | none => none
    | some m => walkIdx m rest

/-- The structural invariant of the spec on a (non-root) node and all its
descendants: a node either stores a value or has at least one child. -/
inductive Good : Node → Prop where
  | mk : ∀ c k v hv, (hv = true ∨ node_has_children (Node.mk c k v hv) = true) →
      (∀ i m, c i = some m → Good m) → Good (Node.mk c k v hv)

/-- The structural invariant on a store: every node strictly below the
root (the root is a sentinel and exempt) satisfies `Good`. -/
def TrieWF (t : Trie) : Prop := ∀ i m, t.child.child i = some m → Good m

/-- One call against the store: the two mutating operations. -/
inductive Op where
  | ins (k : List Char) (v : Int)
  | del (k : List Char)

/-- The key of an operation. -/
def opkey : Op → List Char
  | Op.ins k _ => k
  | Op.del k => k

/-- Running a sequence of operations against the store. -/
def runTrie : Trie → List Op → Trie
  | t, [] => t
  | t, Op.ins k v :: rest => runTrie (add_to_trie k v t).2 rest
  | t, Op.del k :: rest => runTrie (delete_from_trie t k).2 rest

/-- Specification-side model for the refinement claim, following the
words of the spec: the store behaves as a finite map from keys to
integers; insert binds the key to the value, delete removes the binding. -/
def specStep (m : List Char → Option Int) : Op → (List Char → Option Int)
  | Op.ins k v => fun q => if q = k then some v else m q
  | Op.del k => fun q => if q = k then none else m q

/-- Running a sequence of operations against the specification map. -/
def runSpec : (List Char → Option Int) → List Op → (List Char → Option Int)
  | m, [] => m
  | m, op :: rest => runSpec (specStep m op) rest

/-- Position `p` of a key (0-based) names a load-bearing visited node: the
node reached after consuming `p + 1` characters has a value of its own or
several children.  The loop of `delete_from_trie` records the last such
position strictly before the terminal one in
`index_of_last_node_with_value`. -/
def lbAt (n : Node) (ks : List Char) (p : Nat) : Prop :=
  ∃ nd, walkPath n (ks.take (p + 1)) = some nd ∧
    (nd.hasValue || node_has_multiple_children nd) = true

/-- The character stored in a given child slot: the inverse of
`key_to_index` on the key domain. -/
def charOfIdx (i : Fin 26) : Char := Char.ofNat (97 + i.val)


/-! ### Basic lemmas: node fields, slots, characters, keys -/

@[simp] theorem Node.child_mk (c : Fin 26 → Option Node) (k : Char) (v : Int) (hv : Bool) :
    (Node.mk c k v hv).child = c := rfl

@[simp] theorem Node.hasValue_mk (c : Fin 26 → Option Node) (k : Char) (v : Int) (hv : Bool) :
    (Node.mk c k v hv).hasValue = hv := rfl

@[simp] theorem Node.value_mk (c : Fin 26 → Option Node) (k : Char) (v : Int) (hv : Bool) :
    (Node.mk c k v hv).value = v := rfl

@[simp] theorem hasValue_setChild (n : Node) (i : Nat) (x : Option Node) :
    (setChild n i x).hasValue = n.hasValue := by
  unfold setChild
  split <;> rfl

@[simp] theorem value_setChild (n : Node) (i : Nat) (x : Option Node) :
    (setChild n i x).value = n.value := by
  unfold setChild
  split <;> rfl

theorem childAt_setChild_self (n : Node) (i : Nat) (x : Option Node) (h : i < 26) :
    childAt (setChild n i x) i = x := by
  simp [setChild, childAt, h]

theorem childAt_setChild_ne (n : Node) (i j : Nat) (x : Option Node) (hij : i ≠ j) :
    childAt (setChild n i x) j = childAt n j := by
  by_cases hi : i < 26
  · by_cases hj : j < 26
    · simp [setChild, childAt, hi, hj, Function.update_apply, Fin.ext_iff, Ne.symm hij]
    · simp [setChild, childAt, hi, hj]
  · simp [setChild, hi]

theorem validChar_toNat {c : Char} (h : ValidChar c) : 97 ≤ c.toNat ∧ c.toNat ≤ 122 :=
  ⟨h.1, h.2⟩

theorem key_to_index_lt {c : Char} (h : ValidChar c) : key_to_index c < 26 := by
  have := validChar_toNat h
  unfold key_to_index
  omega

theorem key_to_index_inj {c d : Char} (hc : ValidChar c) (hd : ValidChar d)
    (h : key_to_index c = key_to_index d) : c = d := by
  have h1 := validChar_toNat hc
  have h2 := validChar_toNat hd
  have h3 : c.toNat = d.toNat := by unfold key_to_index at h; omega
  exact Char.ext (UInt32.ext h3)

theorem key_permitted_iff (k : List Char) :
    key_permitted k = true ↔ ∀ c ∈ k, ValidChar c := by
  induction k with
  | nil => simp [key_permitted]
  | cons c rest ih =>
    by_cases h : 'a' ≤ c ∧ c ≤ 'z'
    · rw [key_permitted, if_pos h, ih]
      constructor
      · rintro hall d hd
        rcases List.mem_cons.mp hd with rfl | hd2
        · exact h
        · exact hall d hd2
      · intro hall d hd
        exact hall d (List.mem_cons_of_mem c hd)
    · rw [key_permitted, if_neg h]
      simp only [Bool.false_eq_true, false_iff, not_forall]
      exact ⟨c, List.mem_cons_self c rest, fun hvc => h hvc⟩

theorem node_has_children_mk_val (c : Fin 26 → Option Node) (k k' : Char)
    (v v' : Int) (hv hv' : Bool) :
    node_has_children (Node.mk c k v hv) = node_has_children (Node.mk c k' v' hv') := rfl

theorem childAt_eq_none_of_no_children {n : Node} (h : node_has_children n = false)
    (i : Nat) : childAt n i = none := by
  unfold node_has_children at h
  rw [decide_eq_false_iff_not] at h
  push_neg at h
  unfold childAt
  split
  · next hi => simpa using h ⟨i, hi⟩
  · rfl

theorem node_has_children_of_childAt {n : Node} {i : Nat} {m : Node}
    (h : childAt n i = some m) : node_has_children n = true := by
  unfold childAt at h
  split at h
  · next hi =>
    unfold node_has_children
    rw [decide_eq_true_eq]
    exact ⟨⟨i, hi⟩, by simp [h]⟩
  · cases h

theorem single_child_unique {n : Node} (h : node_has_multiple_children n = false)
    {i : Nat} {m : Node} (hi : childAt n i = some m) {j : Nat} (hij : j ≠ i) :
    childAt n j = none := by
  unfold node_has_multiple_children at h
  rw [decide_eq_false_iff_not] at h
  unfold childAt at hi
  split at hi
  case isFalse => cases hi
  case isTrue hlt =>
  unfold childAt
  split
  case isFalse => rfl
  case isTrue hjlt =>
  by_contra hne
  apply h
  rw [Finset.one_lt_card]
  refine ⟨⟨i, hlt⟩, ?_, ⟨j, hjlt⟩, ?_, ?_⟩
  · simp only [Finset.mem_filter, Finset.mem_univ, true_and, hi, Option.isSome_some]
  · simp only [Finset.mem_filter, Finset.mem_univ, true_and]
    exact Option.isSome_iff_ne_none.mpr hne
  · simp only [ne_eq, Fin.mk.injEq]
    omega

theorem has_children_setChild_of_multiple {n : Node} (h : node_has_multiple_children n = true)
    (s : Nat) : node_has_children (setChild n s none) = true := by
  unfold node_has_multiple_children at h
  rw [decide_eq_true_eq, Finset.one_lt_card] at h
  obtain ⟨a, ha, b, hb, hab⟩ := h
  simp only [Finset.mem_filter, Finset.mem_univ, true_and] at ha hb
  have hkey : ∃ x : Fin 26, x.val ≠ s ∧ (n.child x).isSome := by
    by_cases has : a.val = s
    · exact ⟨b, by
        constructor
        · intro hbs
          exact hab (Fin.ext (has.trans hbs.symm))
        · exact hb⟩
    · exact ⟨a, has, ha⟩
  obtain ⟨x, hxs, hx⟩ := hkey
  obtain ⟨m, hm⟩ := Option.isSome_iff_exists.mp hx
  have hx26 : x.val < 26 := x.isLt
  have : childAt (setChild n s none) x.val = some m := by
    rw [childAt_setChild_ne _ _ _ _ (fun hs => hxs hs.symm)]
    unfold childAt
    rw [dif_pos hx26]
    simpa [Fin.eta] using hm
  exact node_has_children_of_childAt this

/-! ### Walk lemmas -/

theorem walkPath_nil (n : Node) : walkPath n [] = some n := rfl

theorem walkPath_cons (n : Node) (c : Char) (rest : List Char) :
    walkPath n (c :: rest) =
      match childAt n (key_to_index c) with
      | none => none
      | some m => walkPath m rest := rfl

theorem lookupNode_nil (n : Node) :
    lookupNode n [] = if n.hasValue then some n.value else none := rfl

theorem lookupNode_cons (n : Node) (c : Char) (rest : List Char) :
    lookupNode n (c :: rest) =
      match childAt n (key_to_index c) with
      | none => none
      | some m => lookupNode m rest := rfl

theorem addNode_nil (n : Node) (v : Int) : addNode n [] v = Node.mk n.child n.keyc v true := rfl

theorem clearValueAt_nil (n : Node) : clearValueAt n [] = Node.mk n.child n.keyc 0 false := rfl

theorem addNode_cons (n : Node) (c : Char) (rest : List Char) (v : Int) :
    addNode n (c :: rest) v =
      match childAt n (key_to_index c) with
      | none =>
        setChild n (key_to_index c)
          (some (addNode (Node.mk (fun _ => none) c 0 false) rest v))
      | some m => setChild n (key_to_index c) (some (addNode m rest v)) := rfl

theorem clearValueAt_cons (n : Node) (c : Char) (rest : List Char) :
    clearValueAt n (c :: rest) =
      match childAt n (key_to_index c) with
      | none => n
      | some m => setChild n (key_to_index c) (some (clearValueAt m rest)) := rfl

theorem clearBelow_nil (n : Node) (s : Nat) : clearBelow n [] s = setChild n s none := rfl

theorem clearBelow_cons (n : Node) (c : Char) (rest : List Char) (s : Nat) :
    clearBelow n (c :: rest) s =
      match childAt n (key_to_index c) with
      | none => n
      | some m => setChild n (key_to_index c) (some (clearBelow m rest s)) := rfl

theorem delScan_nil (n : Node) (i : Nat) (st : ScanSt) : delScan n [] i st = some (n, st) := rfl

theorem delScan_cons (n : Node) (c : Char) (rest : List Char) (i : Nat) (st : ScanSt) :
    delScan n (c :: rest) i st =
      (let st1 : ScanSt := if st.changed then ⟨st.j, key_to_index c, false⟩ else st
       match childAt n (key_to_index c) with
       | none => none
       | some m =>
         let st2 : ScanSt :=
           if (m.hasValue || node_has_multiple_children m) && !rest.isEmpty then
             ⟨(i : Int), st1.s, true⟩
           else st1
         delScan m rest (i + 1) st2) := rfl

theorem walkIdx_nil (n : Node) : walkIdx n [] = some n := rfl

theorem walkIdx_cons (n : Node) (i : Fin 26) (rest : List (Fin 26)) :
    walkIdx n (i :: rest) =
      match n.child i with
      | none => none
      | some m => walkIdx m rest := rfl

theorem walkPath_append (n : Node) (p q : List Char) :
    walkPath n (p ++ q) = (walkPath n p).bind fun m => walkPath m q := by
  induction p generalizing n with
  | nil => rfl
  | cons c rest ih =>
    rw [List.cons_append, walkPath_cons, walkPath_cons]
    cases hc : childAt n (key_to_index c) with
    | none => rfl
    | some m => exact ih m

theorem lookupNode_eq_walk (n : Node) (k : List Char) :
    lookupNode n k = (walkPath n k).bind fun m => if m.hasValue then some m.value else none := by
  induction k generalizing n with
  | nil => rfl
  | cons c rest ih =>
    rw [lookupNode_cons, walkPath_cons]
    cases hc : childAt n (key_to_index c) with
    | none => rfl
    | some m => exact ih m

theorem lookupNode_append (n : Node) (p q : List Char) :
    lookupNode n (p ++ q) = (walkPath n p).bind fun m => lookupNode m q := by
  induction p generalizing n with
  | nil => rfl
  | cons c rest ih =>
    rw [List.cons_append, lookupNode_cons, walkPath_cons]
    cases hc : childAt n (key_to_index c) with
    | none => rfl
    | some m => exact ih m

/-! ### Slot lemmas at the level of `Node.child` -/

theorem childAt_fin (n : Node) (i : Fin 26) : childAt n i.val = n.child i := by
  unfold childAt
  exact dif_pos i.isLt

theorem childAt_noChild (c0 : Char) (v : Int) (hv : Bool) (i : Nat) :
    childAt (Node.mk (fun _ => none) c0 v hv) i = none := by
  unfold childAt
  split <;> rfl

theorem child_setChild_self_fin (n : Node) (s : Nat) (x : Option Node) (i : Fin 26)
    (h : s = i.val) : (setChild n s x).child i = x := by
  have hs : s < 26 := h ▸ i.isLt
  unfold setChild
  rw [dif_pos hs]
  simp only [Node.child_mk]
  have heq : (⟨s, hs⟩ : Fin 26) = i := Fin.ext h
  rw [heq, Function.update_same]

theorem child_setChild_ne_fin (n : Node) (s : Nat) (x : Option Node) (i : Fin 26)
    (h : s ≠ i.val) : (setChild n s x).child i = n.child i := by
  unfold setChild
  split
  · next hs =>
    simp only [Node.child_mk]
    have hne2 : i ≠ (⟨s, hs⟩ : Fin 26) := by
      intro hh
      apply h
      rw [hh]
    exact Function.update_noteq hne2 x n.child
  · rfl

/-! ### Insert lemmas -/

theorem lookupNode_addNode_self :
    ∀ (k : List Char) (n : Node) (v : Int), (∀ c ∈ k, ValidChar c) →
      lookupNode (addNode n k v) k = some v := by
  intro k
  induction k with
  | nil =>
    intro n v _
    rfl
  | cons c rest ih =>
    intro n v hk
    have hc : ValidChar c := hk c (List.mem_cons_self c rest)
    have hrest : ∀ d ∈ rest, ValidChar d := fun d hd => hk d (List.mem_cons_of_mem c hd)
    have hlt := key_to_index_lt hc
    rw [addNode_cons]
    cases hch : childAt n (key_to_index c) with
    | none =>
      rw [lookupNode_cons, childAt_setChild_self _ _ _ hlt]
      exact ih _ _ hrest
    | some m =>
      rw [lookupNode_cons, childAt_setChild_self _ _ _ hlt]
      exact ih _ _ hrest

theorem lookupNode_addNode_fresh_ne :
    ∀ (rest r : List Char) (c0 : Char) (v : Int),
      (∀ d ∈ rest, ValidChar d) → (∀ d ∈ r, ValidChar d) → r ≠ rest →
      lookupNode (addNode (Node.mk (fun _ => none) c0 0 false) rest v) r = none := by
  intro rest
  induction rest with
  | nil =>
    intro r c0 v _ hr hne
    cases r with
    | nil => exact absurd rfl hne
    | cons d r2 =>
      show lookupNode (Node.mk (fun _ => none) c0 v true) (d :: r2) = none
      rw [lookupNode_cons, childAt_noChild]
  | cons e rest2 ih =>
    intro r c0 v hrest hr hne
    have he : ValidChar e := hrest e (List.mem_cons_self e rest2)
    have hrest2 : ∀ d ∈ rest2, ValidChar d := fun d hd => hrest d (List.mem_cons_of_mem e hd)
    have hlt := key_to_index_lt he
    rw [addNode_cons, childAt_noChild]
    cases r with
    | nil => simp only [lookupNode_nil, hasValue_setChild, Node.hasValue_mk, if_false,
        Bool.false_eq_true]
    | cons d r2 =>
      have hd : ValidChar d := hr d (List.mem_cons_self d r2)
      have hr2 : ∀ x ∈ r2, ValidChar x := fun x hx => hr x (List.mem_cons_of_mem d hx)
      rw [lookupNode_cons]
      by_cases hde : key_to_index d = key_to_index e
      · have heq : d = e := key_to_index_inj hd he hde
        subst heq
        have hr2ne : r2 ≠ rest2 := fun h => hne (by rw [h])
        rw [childAt_setChild_self _ _ _ hlt]
        exact ih r2 d v hrest2 hr2 hr2ne
      · rw [childAt_setChild_ne _ _ _ _ (fun h => hde h.symm), childAt_noChild]

theorem lookupNode_addNode_ne :
    ∀ (k k2 : List Char) (n : Node) (v : Int),
      (∀ c ∈ k, ValidChar c) → (∀ c ∈ k2, ValidChar c) → k2 ≠ k →
      lookupNode (addNode n k v) k2 = lookupNode n k2 := by
  intro k
  induction k with
  | nil =>
    intro k2 n v _ hk2 hne
    cases k2 with
    | nil => exact absurd rfl hne
    | cons d r2 => rfl
  | cons c rest ihk =>
    intro k2 n v hk hk2 hne
    have hc : ValidChar c := hk c (List.mem_cons_self c rest)
    have hrest : ∀ d ∈ rest, ValidChar d := fun d hd => hk d (List.mem_cons_of_mem c hd)
    have hlt := key_to_index_lt hc
    rw [addNode_cons]
    cases hch : childAt n (key_to_index c) with
    | none =>
      cases k2 with
      | nil => simp only [lookupNode_nil, hasValue_setChild, value_setChild]
      | cons d r2 =>
        have hd : ValidChar d := hk2 d (List.mem_cons_self d r2)
        have hr2 : ∀ x ∈ r2, ValidChar x := fun x hx => hk2 x (List.mem_cons_of_mem d hx)
        rw [lookupNode_cons, lookupNode_cons]
        by_cases hde : key_to_index d = key_to_index c
        · have heq : d = c := key_to_index_inj hd hc hde
          subst heq
          have hr2ne : r2 ≠ rest := fun h => hne (by rw [h])
          rw [childAt_setChild_self _ _ _ hlt, hch]
          exact lookupNode_addNode_fresh_ne rest r2 d v hrest hr2 hr2ne
        · rw [childAt_setChild_ne _ _ _ _ (fun h => hde h.symm)]
    | some m =>
      cases k2 with
      | nil => simp only [lookupNode_nil, hasValue_setChild, value_setChild]
      | cons d r2 =>
        have hd : ValidChar d := hk2 d (List.mem_cons_self d r2)
        have hr2 : ∀ x ∈ r2, ValidChar x := fun x hx => hk2 x (List.mem_cons_of_mem d hx)
        rw [lookupNode_cons, lookupNode_cons]
        by_cases hde : key_to_index d = key_to_index c
        · have heq : d = c := key_to_index_inj hd hc hde
          subst heq
          have hr2ne : r2 ≠ rest := fun h => hne (by rw [h])
          rw [childAt_setChild_self _ _ _ hlt, hch]
          exact ihk r2 m v hrest hr2 hr2ne
        · rw [childAt_setChild_ne _ _ _ _ (fun h => hde h.symm)]

theorem walkIdx_addNode :
    ∀ (p : List (Fin 26)) (k : List Char) (n : Node) (v : Int),
      (∀ c ∈ k, ValidChar c) → (walkIdx n p).isSome = true →
      (walkIdx (addNode n k v) p).isSome = true := by
  intro p
  induction p with
  | nil =>
    intro k n v _ _
    rw [walkIdx_nil]
    rfl
  | cons i p2 ih =>
    intro k n v hk hw
    rw [walkIdx_cons] at hw
    cases hni : n.child i with
    | none => rw [hni] at hw; cases hw
    | some m =>
      rw [hni] at hw
      cases k with
      | nil =>
        rw [addNode_nil, walkIdx_cons]
        simp only [Node.child_mk]
        rw [hni]
        exact hw
      | cons c rest =>
        have hc : ValidChar c := hk c (List.mem_cons_self c rest)
        have hrest : ∀ d ∈ rest, ValidChar d := fun d hd => hk d (List.mem_cons_of_mem c hd)
        have hlt := key_to_index_lt hc
        rw [addNode_cons]
        cases hch : childAt n (key_to_index c) with
        | none =>
          rw [walkIdx_cons]
          by_cases hii : key_to_index c = i.val
          · exfalso
            rw [hii, childAt_fin, hni] at hch
            cases hch
          · rw [child_setChild_ne_fin _ _ _ _ hii, hni]
            exact hw
        | some m2 =>
          rw [walkIdx_cons]
          by_cases hii : key_to_index c = i.val
          · have hm2 : m2 = m := by
              rw [hii, childAt_fin, hni] at hch
              exact (Option.some_inj.mp hch).symm
            rw [child_setChild_self_fin _ _ _ _ hii, hm2]
            exact ih rest m v hrest hw
          · rw [child_setChild_ne_fin _ _ _ _ hii, hni]
            exact hw

/-! ### Conditional unfolding equations -/

theorem walkPath_cons_none {n : Node} {c : Char} (hch : childAt n (key_to_index c) = none)
    (ks : List Char) : walkPath n (c :: ks) = none := by
  rw [walkPath_cons, hch]

theorem walkPath_cons_some {n m : Node} {c : Char} (hch : childAt n (key_to_index c) = some m)
    (ks : List Char) : walkPath n (c :: ks) = walkPath m ks := by
  rw [walkPath_cons, hch]

theorem lookupNode_cons_none {n : Node} {c : Char} (hch : childAt n (key_to_index c) = none)
    (ks : List Char) : lookupNode n (c :: ks) = none := by
  rw [lookupNode_cons, hch]

theorem lookupNode_cons_some {n m : Node} {c : Char} (hch : childAt n (key_to_index c) = some m)
    (ks : List Char) : lookupNode n (c :: ks) = lookupNode m ks := by
  rw [lookupNode_cons, hch]

theorem clearValueAt_cons_none {n : Node} {c : Char} (hch : childAt n (key_to_index c) = none)
    (ks : List Char) : clearValueAt n (c :: ks) = n := by
  rw [clearValueAt_cons, hch]

theorem clearValueAt_cons_some {n m : Node} {c : Char}
    (hch : childAt n (key_to_index c) = some m) (ks : List Char) :
    clearValueAt n (c :: ks) = setChild n (key_to_index c) (some (clearValueAt m ks)) := by
  rw [clearValueAt_cons, hch]

theorem clearBelow_cons_none {n : Node} {c : Char} (hch : childAt n (key_to_index c) = none)
    (ks : List Char) (s : Nat) : clearBelow n (c :: ks) s = n := by
  rw [clearBelow_cons, hch]

theorem clearBelow_cons_some {n m : Node} {c : Char}
    (hch : childAt n (key_to_index c) = some m) (ks : List Char) (s : Nat) :
    clearBelow n (c :: ks) s = setChild n (key_to_index c) (some (clearBelow m ks s)) := by
  rw [clearBelow_cons, hch]

theorem delScan_cons_none {n : Node} {c : Char} (hch : childAt n (key_to_index c) = none)
    (rest : List Char) (i : Nat) (st : ScanSt) : delScan n (c :: rest) i st = none := by
  rw [delScan_cons, hch]

theorem delScan_cons_some {n m : Node} {c : Char} (hch : childAt n (key_to_index c) = some m)
    (rest : List Char) (i : Nat) (st : ScanSt) :
    delScan n (c :: rest) i st =
      delScan m rest (i + 1)
        (if (m.hasValue || node_has_multiple_children m) && !rest.isEmpty then
           ⟨(i : Int), if st.changed then key_to_index c else st.s, true⟩
         else if st.changed then ⟨st.j, key_to_index c, false⟩ else st) := by
  rw [delScan_cons, hch]
  cases hb : st.changed <;> simp [hb]

/-! ### The scan of `delete_from_trie`: path existence and postcondition -/

theorem delScan_eq_none_iff :
    ∀ (ks : List Char) (n : Node) (i : Nat) (st : ScanSt),
      (delScan n ks i st = none ↔ walkPath n ks = none) := by
  intro ks
  induction ks with
  | nil =>
    intro n i st
    rw [delScan_nil, walkPath_nil]
    simp
  | cons c rest ih =>
    intro n i st
    cases hch : childAt n (key_to_index c) with
    | none =>
      rw [delScan_cons_none hch, walkPath_cons_none hch]
      simp
    | some m => rw [delScan_cons_some hch, walkPath_cons_some hch]; exact ih m (i + 1) _

theorem lbAt_zero_iff {n m : Node} {c : Char} {rest : List Char}
    (hch : childAt n (key_to_index c) = some m) :
    lbAt n (c :: rest) 0 ↔ (m.hasValue || node_has_multiple_children m) = true := by
  unfold lbAt
  have h1 : (c :: rest).take 1 = [c] := rfl
  rw [h1, walkPath_cons_some hch, walkPath_nil]
  simp

theorem lbAt_succ_iff {n m : Node} {c : Char} {rest : List Char} (p : Nat)
    (hch : childAt n (key_to_index c) = some m) :
    lbAt n (c :: rest) (p + 1) ↔ lbAt m rest p := by
  unfold lbAt
  have h1 : (c :: rest).take (p + 2) = c :: rest.take (p + 1) := rfl
  rw [h1, walkPath_cons_some hch]

theorem delScan_spec :
    ∀ (ks : List Char) (n : Node) (i : Nat) (st : ScanSt) (tn : Node) (st2 : ScanSt),
      delScan n ks i st = some (tn, st2) →
      walkPath n ks = some tn ∧
      ((∃ p, (p + 1 < ks.length ∧ lbAt n ks p) ∧
          (∀ q, p < q → q + 1 < ks.length → ¬ lbAt n ks q) ∧
          st2.j = (i : Int) + p ∧ st2.changed = false ∧
          st2.s = key_to_index (ks.getD (p + 1) 'a')) ∨
       ((∀ q, q + 1 < ks.length → ¬ lbAt n ks q) ∧ st2.j = st.j ∧
         (ks = [] → st2 = st) ∧
         (ks ≠ [] → st2.changed = false ∧
           st2.s = if st.changed then key_to_index ks.headI else st.s))) := by
  intro ks
  induction ks with
  | nil =>
    intro n i st tn st2 h
    rw [delScan_nil] at h
    simp only [Option.some_inj, Prod.mk.injEq] at h
    obtain ⟨rfl, rfl⟩ := h
    refine ⟨rfl, Or.inr ⟨?_, rfl, fun _ => rfl, fun hne => absurd rfl hne⟩⟩
    intro q hq
    rw [List.length_nil] at hq
    omega
  | cons c rest ih =>
    intro n i st tn st2 h
    cases hch : childAt n (key_to_index c) with
    | none => rw [delScan_cons_none hch] at h; cases h
    | some m =>
      rw [delScan_cons_some hch] at h
      by_cases hq0 : ((m.hasValue || node_has_multiple_children m) && !rest.isEmpty) = true
      · rw [if_pos hq0] at h
        have hLBm : (m.hasValue || node_has_multiple_children m) = true :=
          (Bool.and_eq_true_iff.mp hq0).1
        have hrne : rest ≠ [] := by
          have := (Bool.and_eq_true_iff.mp hq0).2
          simpa using this
        obtain ⟨hwalk, hcase⟩ := ih m (i + 1) _ tn st2 h
        refine ⟨by rw [walkPath_cons_some hch]; exact hwalk, ?_⟩
        rcases hcase with ⟨p', ⟨hp'len, hp'lb⟩, hafter, hj, hchg, hs⟩ |
          ⟨hnone, hj, hnil2, hrest2⟩
        · left
          refine ⟨p' + 1, ⟨?_, (lbAt_succ_iff p' hch).mpr hp'lb⟩, ?_, ?_, hchg, ?_⟩
          · simp only [List.length_cons]
            omega
          · intro q hq hqlen
            cases q with
            | zero => omega
            | succ q' =>
              intro hlb
              refine hafter q' (by omega) ?_ ((lbAt_succ_iff q' hch).mp hlb)
              simp only [List.length_cons] at hqlen
              omega
          · rw [hj]
            push_cast
            ring
          · rw [hs]
            rfl
        · left
          refine ⟨0, ⟨?_, (lbAt_zero_iff hch).mpr hLBm⟩, ?_, ?_, ?_, ?_⟩
          · have := List.length_pos.mpr hrne
            simp only [List.length_cons]
            omega
          · intro q hq hqlen
            cases q with
            | zero => omega
            | succ q' =>
              intro hlb
              refine hnone q' ?_ ((lbAt_succ_iff q' hch).mp hlb)
              simp only [List.length_cons] at hqlen
              omega
          · rw [hj]
            simp
          · exact (hrest2 hrne).1
          · rw [(hrest2 hrne).2]
            simp only [if_pos]
            cases rest with
            | nil => exact absurd rfl hrne
            | cons e r => rfl
      · rw [if_neg hq0] at h
        have hq0' : (m.hasValue || node_has_multiple_children m) = false ∨ rest = [] := by
          by_cases hLB : (m.hasValue || node_has_multiple_children m) = true
          · right
            by_contra hrne
            exact hq0 (by simp [hLB, hrne])
          · left
            simpa using hLB
        obtain ⟨hwalk, hcase⟩ := ih m (i + 1) _ tn st2 h
        refine ⟨by rw [walkPath_cons_some hch]; exact hwalk, ?_⟩
        rcases hcase with ⟨p', ⟨hp'len, hp'lb⟩, hafter, hj, hchg, hs⟩ |
          ⟨hnone, hj, hnil2, hrest2⟩
        · left
          refine ⟨p' + 1, ⟨?_, (lbAt_succ_iff p' hch).mpr hp'lb⟩, ?_, ?_, hchg, ?_⟩
          · simp only [List.length_cons]
            omega
          · intro q hq hqlen
            cases q with
            | zero => omega
            | succ q' =>
              intro hlb
              refine hafter q' (by omega) ?_ ((lbAt_succ_iff q' hch).mp hlb)
              simp only [List.length_cons] at hqlen
              omega
          · rw [hj]
            push_cast
            ring
          · rw [hs]
            rfl
        · right
          have hjpres : (if st.changed then (⟨st.j, key_to_index c, false⟩ : ScanSt) else st).j
              = st.j := by
            cases hb : st.changed <;> simp [hb]
          have hchpres :
              (if st.changed then (⟨st.j, key_to_index c, false⟩ : ScanSt) else st).changed
              = false := by
            cases hb : st.changed <;> simp [hb]
          have hspres : (if st.changed then (⟨st.j, key_to_index c, false⟩ : ScanSt) else st).s
              = if st.changed then key_to_index c else st.s := by
            cases hb : st.changed <;> simp [hb]
          refine ⟨?_, by rw [hj, hjpres], fun hks => absurd hks (by simp), ?_⟩
          · intro q hqlen
            cases q with
            | zero =>
              intro hlb
              have hLBm := (lbAt_zero_iff hch).mp hlb
              simp only [List.length_cons] at hqlen
              have hrne : rest ≠ [] := by
                intro hr
                subst hr
                simp at hqlen
              rcases hq0' with hf | hr
              · rw [hLBm] at hf
                cases hf
              · exact hrne hr
            | succ q' =>
              intro hlb
              refine hnone q' ?_ ((lbAt_succ_iff q' hch).mp hlb)
              simp only [List.length_cons] at hqlen
              omega
          · intro _
            by_cases hr : rest = []
            · subst hr
              have hst2 := hnil2 rfl
              rw [hst2]
              exact ⟨hchpres, hspres⟩
            · have hpair := hrest2 hr
              refine ⟨hpair.1, ?_⟩
              rw [hpair.2, hchpres]
              simp only [Bool.false_eq_true, if_false]
              rw [hspres]
              rfl

/-! ### The flag-clearing branch of delete -/

theorem lookupNode_clearValueAt_self :
    ∀ (k : List Char) (n tn : Node), (∀ c ∈ k, ValidChar c) →
      walkPath n k = some tn → lookupNode (clearValueAt n k) k = none := by
  intro k
  induction k with
  | nil =>
    intro n tn _ _
    rw [clearValueAt_nil, lookupNode_nil]
    simp
  | cons c rest ih =>
    intro n tn hk hw
    have hc := hk c (List.mem_cons_self c rest)
    have hrest : ∀ d ∈ rest, ValidChar d := fun d hd => hk d (List.mem_cons_of_mem c hd)
    have hlt := key_to_index_lt hc
    cases hch : childAt n (key_to_index c) with
    | none => rw [walkPath_cons_none hch] at hw; cases hw
    | some m =>
      rw [walkPath_cons_some hch] at hw
      rw [clearValueAt_cons_some hch, lookupNode_cons, childAt_setChild_self _ _ _ hlt]
      exact ih m tn hrest hw

theorem lookupNode_clearValueAt_ne :
    ∀ (k k2 : List Char) (n : Node),
      (∀ c ∈ k, ValidChar c) → (∀ c ∈ k2, ValidChar c) → k2 ≠ k →
      lookupNode (clearValueAt n k) k2 = lookupNode n k2 := by
  intro k
  induction k with
  | nil =>
    intro k2 n _ hk2 hne
    cases k2 with
    | nil => exact absurd rfl hne
    | cons d r2 =>
      rw [clearValueAt_nil, lookupNode_cons, lookupNode_cons]
      rfl
  | cons c rest ih =>
    intro k2 n hk hk2 hne
    have hc := hk c (List.mem_cons_self c rest)
    have hrest : ∀ d ∈ rest, ValidChar d := fun d hd => hk d (List.mem_cons_of_mem c hd)
    have hlt := key_to_index_lt hc
    cases hch : childAt n (key_to_index c) with
    | none => rw [clearValueAt_cons_none hch]
    | some m =>
      rw [clearValueAt_cons_some hch]
      cases k2 with
      | nil => simp only [lookupNode_nil, hasValue_setChild, value_setChild]
      | cons d r2 =>
        have hd := hk2 d (List.mem_cons_self d r2)
        have hr2 : ∀ x ∈ r2, ValidChar x := fun x hx => hk2 x (List.mem_cons_of_mem d hx)
        rw [lookupNode_cons, lookupNode_cons]
        by_cases hde : key_to_index d = key_to_index c
        · have heq : d = c := key_to_index_inj hd hc hde
          subst heq
          have hr2ne : r2 ≠ rest := fun hh => hne (by rw [hh])
          rw [childAt_setChild_self _ _ _ hlt, hch]
          exact ih r2 m hrest hr2 hr2ne
        · rw [childAt_setChild_ne _ _ _ _ (fun hh => hde hh.symm)]

/-! ### The pruning branch of delete -/

theorem walkPath_clearBelow_self :
    ∀ (pre : List Char) (n a : Node) (s : Nat),
      (∀ c ∈ pre, ValidChar c) → walkPath n pre = some a →
      walkPath (clearBelow n pre s) pre = some (setChild a s none) := by
  intro pre
  induction pre with
  | nil =>
    intro n a s _ hw
    rw [walkPath_nil] at hw
    obtain rfl := Option.some_inj.mp hw
    rw [clearBelow_nil, walkPath_nil]
  | cons c rest ih =>
    intro n a s hk hw
    have hc := hk c (List.mem_cons_self c rest)
    have hrest : ∀ d ∈ rest, ValidChar d := fun d hd => hk d (List.mem_cons_of_mem c hd)
    have hlt := key_to_index_lt hc
    cases hch : childAt n (key_to_index c) with
    | none => rw [walkPath_cons_none hch] at hw; cases hw
    | some m =>
      rw [walkPath_cons_some hch] at hw
      rw [clearBelow_cons_some hch, walkPath_cons, childAt_setChild_self _ _ _ hlt]
      exact ih m a s hrest hw

theorem lookupNode_clearBelow_ne :
    ∀ (pre k2 : List Char) (n : Node) (c : Char),
      (∀ x ∈ pre, ValidChar x) → (∀ x ∈ k2, ValidChar x) → ValidChar c →
      ¬ (pre ++ [c] <+: k2) →
      lookupNode (clearBelow n pre (key_to_index c)) k2 = lookupNode n k2 := by
  intro pre
  induction pre with
  | nil =>
    intro k2 n c _ hk2 hc hnp
    rw [clearBelow_nil]
    cases k2 with
    | nil => simp only [lookupNode_nil, hasValue_setChild, value_setChild]
    | cons d r2 =>
      have hd := hk2 d (List.mem_cons_self d r2)
      rw [lookupNode_cons, lookupNode_cons]
      by_cases hde : key_to_index d = key_to_index c
      · exfalso
        have heq : d = c := key_to_index_inj hd hc hde
        subst heq
        exact hnp ⟨r2, rfl⟩
      · rw [childAt_setChild_ne _ _ _ _ (fun hh => hde hh.symm)]
  | cons e pre2 ih =>
    intro k2 n c hpre hk2 hc hnp
    have he := hpre e (List.mem_cons_self e pre2)
    have hpre2 : ∀ x ∈ pre2, ValidChar x := fun x hx => hpre x (List.mem_cons_of_mem e hx)
    have hlt := key_to_index_lt he
    cases hch : childAt n (key_to_index e) with
    | none => rw [clearBelow_cons_none hch]
    | some m =>
      rw [clearBelow_cons_some hch]
      cases k2 with
      | nil => simp only [lookupNode_nil, hasValue_setChild, value_setChild]
      | cons d r2 =>
        have hd := hk2 d (List.mem_cons_self d r2)
        have hr2 : ∀ x ∈ r2, ValidChar x := fun x hx => hk2 x (List.mem_cons_of_mem d hx)
        rw [lookupNode_cons, lookupNode_cons]
        by_cases hde : key_to_index d = key_to_index e
        · have heq : d = e := key_to_index_inj hd he hde
          subst heq
          rw [childAt_setChild_self _ _ _ hlt, hch]
          refine ih r2 m c hpre2 hr2 hc ?_
          intro hp
          exact hnp (List.cons_prefix_cons.mpr ⟨rfl, hp⟩)
        · rw [childAt_setChild_ne _ _ _ _ (fun hh => hde hh.symm)]

theorem lookupNode_clearBelow_cut :
    ∀ (pre tail : List Char) (n a : Node) (c : Char),
      (∀ x ∈ pre, ValidChar x) → ValidChar c →
      walkPath n pre = some a →
      lookupNode (clearBelow n pre (key_to_index c)) (pre ++ c :: tail) = none := by
  intro pre tail n a c hpre hc hw
  have hlt := key_to_index_lt hc
  rw [lookupNode_append, walkPath_clearBelow_self pre n a (key_to_index c) hpre hw]
  show lookupNode (setChild a (key_to_index c) none) (c :: tail) = none
  exact lookupNode_cons_none (childAt_setChild_self a (key_to_index c) none hlt) tail

/-! ### No other key lives on a doomed chain -/

theorem chain_lookup_none :
    ∀ (suf : List Char) (m : Node) (k2 : List Char) (tn : Node),
      (∀ x ∈ suf, ValidChar x) → (∀ x ∈ k2, ValidChar x) →
      walkPath m suf = some tn → node_has_children tn = false →
      (∀ p, 0 < p → p < suf.length → ∀ nd, walkPath m (suf.take p) = some nd →
        nd.hasValue = false ∧ node_has_multiple_children nd = false) →
      suf ≠ [] → k2 ≠ [] → k2 ≠ suf →
      key_to_index k2.headI = key_to_index suf.headI →
      lookupNode m k2 = none := by
  intro suf
  induction suf with
  | nil =>
    intro m k2 tn _ _ _ _ _ hsne _ _ _
    exact absurd rfl hsne
  | cons c suf2 ih =>
    intro m k2 tn hsuf hk2 hw hnc hmid _ hk2ne hne hhead
    have hc := hsuf c (List.mem_cons_self c suf2)
    have hsuf2 : ∀ x ∈ suf2, ValidChar x := fun x hx => hsuf x (List.mem_cons_of_mem c hx)
    cases k2 with
    | nil => exact absurd rfl hk2ne
    | cons d r2 =>
      have hd := hk2 d (List.mem_cons_self d r2)
      have hr2 : ∀ x ∈ r2, ValidChar x := fun x hx => hk2 x (List.mem_cons_of_mem d hx)
      have hdc : d = c := key_to_index_inj hd hc (by simpa using hhead)
      subst hdc
      cases hch : childAt m (key_to_index d) with
      | none => rw [walkPath_cons_none hch] at hw; cases hw
      | some m1 =>
        rw [walkPath_cons_some hch] at hw
        rw [lookupNode_cons_some hch]
        cases suf2 with
        | nil =>
          rw [walkPath_nil] at hw
          obtain rfl := Option.some_inj.mp hw
          cases r2 with
          | nil => exact absurd rfl hne
          | cons e r3 => exact lookupNode_cons_none (childAt_eq_none_of_no_children hnc _) r3
        | cons e suf3 =>
          have hm1 : m1.hasValue = false ∧ node_has_multiple_children m1 = false := by
            refine hmid 1 (by omega) (by simp only [List.length_cons]; omega) m1 ?_
            rw [show (d :: e :: suf3).take 1 = [d] from rfl, walkPath_cons_some hch,
              walkPath_nil]
          cases r2 with
          | nil =>
            rw [lookupNode_nil, hm1.1]
            simp
          | cons f r3 =>
            by_cases hfe : key_to_index f = key_to_index e
            · refine ih m1 (f :: r3) tn hsuf2 hr2 hw hnc ?_ (by simp) (by simp)
                (fun hh => hne (by rw [hh])) (by simpa using hfe)
              intro p hp0 hplen nd hwnd
              refine hmid (p + 1) (by omega)
                (by simp only [List.length_cons] at hplen ⊢; omega) nd ?_
              rw [show (d :: (e :: suf3)).take (p + 1) = d :: (e :: suf3).take p from rfl,
                walkPath_cons_some hch]
              exact hwnd
            · cases hche : childAt m1 (key_to_index e) with
              | none => rw [walkPath_cons_none hche] at hw; cases hw
              | some m2 =>
                have hnone : childAt m1 (key_to_index f) = none :=
                  single_child_unique hm1.2 hche hfe
                exact lookupNode_cons_none hnone r3

theorem not_lbAt_forall {n : Node} {k : List Char} {q : Nat} (h : ¬ lbAt n k q) :
    ∀ nd, walkPath n (k.take (q + 1)) = some nd →
      nd.hasValue = false ∧ node_has_multiple_children nd = false := by
  intro nd hw
  unfold lbAt at h
  push_neg at h
  have h2 := h nd hw
  have hfalse : (nd.hasValue || node_has_multiple_children nd) = false := by
    simpa using h2
  exact ⟨(Bool.or_eq_false_iff.mp hfalse).1, (Bool.or_eq_false_iff.mp hfalse).2⟩

theorem prune_lookup :
    ∀ (rt : Node) (k : List Char) (m : Nat) (tn : Node),
      (∀ c ∈ k, ValidChar c) → m < k.length →
      walkPath rt k = some tn → node_has_children tn = false →
      (∀ q, m < q → q < k.length → ∀ nd, walkPath rt (k.take q) = some nd →
        nd.hasValue = false ∧ node_has_multiple_children nd = false) →
      ∀ k2, (∀ c ∈ k2, ValidChar c) →
        lookupNode (clearBelow rt (k.take m) (key_to_index (k.getD m 'a'))) k2 =
          if k2 = k then none else lookupNode rt k2 := by
  intro rt k m tn hkv hm hw hnc hchain k2 hk2v
  have hcm : ValidChar (k.getD m 'a') := by
    rw [List.getD_eq_getElem k 'a' hm]
    exact hkv _ (List.getElem_mem hm)
  have hpreV : ∀ c ∈ k.take m, ValidChar c := fun c hc => hkv c (List.take_subset m k hc)
  have hsufV : ∀ c ∈ k.drop m, ValidChar c := fun c hc => hkv c (List.drop_subset m k hc)
  have hsplit : k.take m ++ k.drop m = k := List.take_append_drop m k
  have hdrop : k.drop m = k.getD m 'a' :: k.drop (m + 1) := by
    rw [List.getD_eq_getElem k 'a' hm]
    exact List.drop_eq_getElem_cons hm
  have hwfull : walkPath rt (k.take m ++ k.drop m) = some tn := by rw [hsplit]; exact hw
  rw [walkPath_append] at hwfull
  obtain ⟨a, hwpre, hwsuf⟩ : ∃ a, walkPath rt (k.take m) = some a ∧
      walkPath a (k.drop m) = some tn := by
    cases hwp : walkPath rt (k.take m) with
    | none => rw [hwp] at hwfull; cases hwfull
    | some a => rw [hwp] at hwfull; exact ⟨a, rfl, hwfull⟩
  have hkeq : k.take m ++ k.getD m 'a' :: k.drop (m + 1) = k := by
    rw [← hdrop]
    exact hsplit
  by_cases hk2k : k2 = k
  · rw [if_pos hk2k, hk2k]
    have hcut := lookupNode_clearBelow_cut (k.take m) (k.drop (m + 1)) rt a (k.getD m 'a')
      hpreV hcm hwpre
    rw [hkeq] at hcut
    exact hcut
  · rw [if_neg hk2k]
    by_cases hp : (k.take m ++ [k.getD m 'a']) <+: k2
    · obtain ⟨tail2, htail2⟩ := hp
      have happ : (k.take m ++ [k.getD m 'a']) ++ tail2 = k.take m ++ k.getD m 'a' :: tail2 := by
        simp
      rw [happ] at htail2
      have hafter : lookupNode (clearBelow rt (k.take m) (key_to_index (k.getD m 'a'))) k2
          = none := by
        have hcut := lookupNode_clearBelow_cut (k.take m) tail2 rt a (k.getD m 'a')
          hpreV hcm hwpre
        rw [htail2] at hcut
        exact hcut
      rw [hafter]
      symm
      rw [← htail2, lookupNode_append, hwpre]
      show lookupNode a (k.getD m 'a' :: tail2) = none
      refine chain_lookup_none (k.drop m) a (k.getD m 'a' :: tail2) tn hsufV ?_ hwsuf hnc
        ?_ ?_ (by simp) ?_ ?_
      · intro x hx
        rcases List.mem_cons.mp hx with rfl | hx2
        · exact hcm
        · refine hk2v x ?_
          rw [← htail2]
          exact List.mem_append_right _ (List.mem_cons_of_mem _ hx2)
      · intro p hp0 hplen nd hwnd
        refine hchain (m + p) (by omega) ?_ nd ?_
        · rw [List.length_drop] at hplen
          omega
        · rw [List.take_add, walkPath_append, hwpre]
          exact hwnd
      · rw [hdrop]
        simp
      · intro hh
        apply hk2k
        rw [← htail2, hh]
        exact hsplit
      · rw [hdrop]
        rfl
    · rw [lookupNode_clearBelow_ne (k.take m) k2 rt (k.getD m 'a') hpreV hk2v hcm hp]

/-! ### Unfolding `delete_from_trie` by branch -/

theorem delete_eq_not_permitted {t : Trie} {k : List Char}
    (hperm : key_permitted k = false) : delete_from_trie t k = (false, t) := by
  unfold delete_from_trie
  rw [hperm]
  rfl

theorem delete_eq_of_scan_none {t : Trie} {k : List Char}
    (hperm : key_permitted k = true)
    (hscan : delScan t.child k 0 ⟨-1, 0, true⟩ = none) :
    delete_from_trie t k = (false, t) := by
  unfold delete_from_trie
  rw [hperm, hscan]
  rfl

theorem delete_eq_of_scan_some {t : Trie} {k : List Char} {tn : Node} {st : ScanSt}
    (hperm : key_permitted k = true)
    (hscan : delScan t.child k 0 ⟨-1, 0, true⟩ = some (tn, st)) :
    delete_from_trie t k =
      (if !tn.hasValue then (false, t)
       else if node_has_children tn then (true, ⟨clearValueAt t.child k⟩)
       else if st.j < 0 then (true, ⟨setChild t.child st.s none⟩)
       else (true, ⟨clearBelow t.child (List.take (st.j.toNat + 1) k) st.s⟩)) := by
  unfold delete_from_trie
  rw [hperm, hscan]
  rfl

/-! ### The functional behavior of delete -/

theorem delete_lookupNode (t : Trie) (k : List Char) (hkne : k ≠ [])
    (hkv : ∀ c ∈ k, ValidChar c) (k2 : List Char) (hk2v : ∀ c ∈ k2, ValidChar c) :
    lookupNode (delete_from_trie t k).2.child k2 =
      if k2 = k then none else lookupNode t.child k2 := by
  have hperm : key_permitted k = true := (key_permitted_iff k).mpr hkv
  cases hscan : delScan t.child k 0 ⟨-1, 0, true⟩ with
  | none =>
    rw [delete_eq_of_scan_none hperm hscan]
    have hwn : walkPath t.child k = none := (delScan_eq_none_iff k t.child 0 _).mp hscan
    by_cases hk2k : k2 = k
    · rw [if_pos hk2k, hk2k, lookupNode_eq_walk, hwn]
      rfl
    · rw [if_neg hk2k]
  | some pair =>
    obtain ⟨tn, st⟩ := pair
    obtain ⟨hwalk, hcase⟩ := delScan_spec k t.child 0 ⟨-1, 0, true⟩ tn st hscan
    rw [delete_eq_of_scan_some hperm hscan]
    by_cases hhv : tn.hasValue = true
    · rw [if_neg (by simp [hhv])]
      by_cases hnc : node_has_children tn = true
      · rw [if_pos hnc]
        by_cases hk2k : k2 = k
        · rw [if_pos hk2k, hk2k]
          exact lookupNode_clearValueAt_self k t.child tn hkv hwalk
        · rw [if_neg hk2k]
          exact lookupNode_clearValueAt_ne k k2 t.child hkv hk2v hk2k
      · have hncf : node_has_children tn = false := by simpa using hnc
        rw [if_neg hnc]
        rcases hcase with ⟨p, ⟨hplen, hplb⟩, hafter, hj, hchg, hs⟩ |
          ⟨hnone, hj, hnil, hrest⟩
        · have hjval : st.j = (p : Int) := by rw [hj]; simp
          have hjnneg : ¬ st.j < 0 := by rw [hjval]; omega
          rw [if_neg hjnneg]
          have htn : st.j.toNat + 1 = p + 1 := by rw [hjval]; omega
          rw [htn, hs]
          refine prune_lookup t.child k (p + 1) tn hkv hplen hwalk hncf ?_ k2 hk2v
          intro q hq hqlen nd hwnd
          have hqm1 : q - 1 + 1 = q := by omega
          refine not_lbAt_forall (hafter (q - 1) (by omega) (by omega)) nd ?_
          rw [hqm1]
          exact hwnd
        · have hjval : st.j = (-1 : Int) := by rw [hj]
          have hjneg : st.j < 0 := by rw [hjval]; omega
          rw [if_pos hjneg]
          have hsv : st.s = key_to_index (k.getD 0 'a') := by
            obtain ⟨_, hs2⟩ := hrest hkne
            rw [hs2]
            cases k with
            | nil => exact absurd rfl hkne
            | cons c r => rfl
          have hcb : (⟨setChild t.child st.s none⟩ : Trie)
              = ⟨clearBelow t.child (k.take 0) st.s⟩ := by
            rw [List.take_zero, clearBelow_nil]
          rw [hcb, hsv]
          have h0len : 0 < k.length := List.length_pos.mpr hkne
          refine prune_lookup t.child k 0 tn hkv h0len hwalk hncf ?_ k2 hk2v
          intro q hq hqlen nd hwnd
          have hqm1 : q - 1 + 1 = q := by omega
          refine not_lbAt_forall (hnone (q - 1) (by omega)) nd ?_
          rw [hqm1]
          exact hwnd
    · have hhvf : tn.hasValue = false := by simpa using hhv
      rw [if_pos (by simp [hhvf])]
      by_cases hk2k : k2 = k
      · rw [if_pos hk2k, hk2k, lookupNode_eq_walk, hwalk]
        simp [hhvf]
      · rw [if_neg hk2k]

theorem delete_fst_true_iff (t : Trie) (k : List Char) (hkv : ∀ c ∈ k, ValidChar c) :
    (delete_from_trie t k).1 = true ↔ lookupNode t.child k ≠ none := by
  have hperm : key_permitted k = true := (key_permitted_iff k).mpr hkv
  cases hscan : delScan t.child k 0 ⟨-1, 0, true⟩ with
  | none =>
    rw [delete_eq_of_scan_none hperm hscan]
    have hwn : walkPath t.child k = none := (delScan_eq_none_iff k t.child 0 _).mp hscan
    rw [lookupNode_eq_walk, hwn]
    simp
  | some pair =>
    obtain ⟨tn, st⟩ := pair
    obtain ⟨hwalk, _⟩ := delScan_spec k t.child 0 ⟨-1, 0, true⟩ tn st hscan
    rw [delete_eq_of_scan_some hperm hscan, lookupNode_eq_walk, hwalk]
    by_cases hhv : tn.hasValue = true
    · rw [if_neg (by simp [hhv])]
      constructor
      · intro _
        simp [hhv]
      · intro _
        by_cases hnc : node_has_children tn = true
        · rw [if_pos hnc]
        · rw [if_neg hnc]
          by_cases hj : st.j < 0
          · rw [if_pos hj]
          · rw [if_neg hj]
    · have hhvf : tn.hasValue = false := by simpa using hhv
      rw [if_pos (by simp [hhvf])]
      simp [hhvf]

theorem delete_not_found_eq (t : Trie) (k : List Char)
    (hkv : ∀ c ∈ k, ValidChar c) (hnf : lookupNode t.child k = none) :
    delete_from_trie t k = (false, t) := by
  have hperm : key_permitted k = true := (key_permitted_iff k).mpr hkv
  cases hscan : delScan t.child k 0 ⟨-1, 0, true⟩ with
  | none => exact delete_eq_of_scan_none hperm hscan
  | some pair =>
    obtain ⟨tn, st⟩ := pair
    obtain ⟨hwalk, _⟩ := delScan_spec k t.child 0 ⟨-1, 0, true⟩ tn st hscan
    rw [lookupNode_eq_walk, hwalk] at hnf
    have hhvf : tn.hasValue = false := by
      by_contra hhv
      rw [Bool.not_eq_false] at hhv
      simp [hhv] at hnf
    rw [delete_eq_of_scan_some hperm hscan, if_pos (by simp [hhvf])]

/-! ### Conditional unfolding equations for insert and the API guards -/

theorem addNode_cons_none {n : Node} {c : Char} (hch : childAt n (key_to_index c) = none)
    (rest : List Char) (v : Int) :
    addNode n (c :: rest) v =
      setChild n (key_to_index c)
        (some (addNode (Node.mk (fun _ => none) c 0 false) rest v)) := by
  rw [addNode_cons, hch]

theorem addNode_cons_some {n m : Node} {c : Char} (hch : childAt n (key_to_index c) = some m)
    (rest : List Char) (v : Int) :
    addNode n (c :: rest) v = setChild n (key_to_index c) (some (addNode m rest v)) := by
  rw [addNode_cons, hch]

theorem add_to_trie_permitted {k : List Char} {v : Int} {t : Trie}
    (hperm : key_permitted k = true) :
    add_to_trie k v t = (true, ⟨addNode t.child k v⟩) := by
  unfold add_to_trie
  rw [hperm]
  rfl

theorem add_to_trie_not_permitted {k : List Char} {v : Int} {t : Trie}
    (hperm : key_permitted k = false) : add_to_trie k v t = (false, t) := by
  unfold add_to_trie
  rw [hperm]
  rfl

theorem lookup_in_trie_permitted {t : Trie} {k : List Char}
    (hperm : key_permitted k = true) : lookup_in_trie t k = lookupNode t.child k := by
  unfold lookup_in_trie
  rw [hperm]
  rfl

theorem lookup_in_trie_not_permitted {t : Trie} {k : List Char}
    (hperm : key_permitted k = false) : lookup_in_trie t k = none := by
  unfold lookup_in_trie
  rw [hperm]
  rfl

/-! ### The structural invariant is preserved -/

theorem Good.hasValue_or_children {n : Node} (h : Good n) :
    n.hasValue = true ∨ node_has_children n = true := by
  cases h with
  | mk c k v hv h1 h2 => exact h1

theorem Good.childGood {n : Node} (h : Good n) {i : Fin 26} {m : Node}
    (hc : n.child i = some m) : Good m := by
  cases h with
  | mk c k v hv h1 h2 => exact h2 i m hc

theorem good_mk_of {n : Node} (h1 : n.hasValue = true ∨ node_has_children n = true)
    (h2 : ∀ i m, n.child i = some m → Good m) : Good n := by
  cases n with
  | mk c k v hv => exact Good.mk c k v hv h1 h2

theorem good_setChild_some {n : Node} (hch : ∀ i m, n.child i = some m → Good m)
    {s : Nat} (hs : s < 26) {m : Node} (hm : Good m) :
    Good (setChild n s (some m)) := by
  refine good_mk_of
    (Or.inr (node_has_children_of_childAt (childAt_setChild_self n s (some m) hs))) ?_
  intro i m2 hc
  by_cases hsi : s = i.val
  · rw [child_setChild_self_fin n s _ i hsi] at hc
    obtain rfl := Option.some_inj.mp hc
    exact hm
  · rw [child_setChild_ne_fin n s _ i hsi] at hc
    exact hch i m2 hc

theorem childAt_to_child {n : Node} {i : Nat} {m : Node} (h : childAt n i = some m)
    (hi : i < 26) : n.child ⟨i, hi⟩ = some m := by
  unfold childAt at h
  rwa [dif_pos hi] at h

theorem good_addNode_fresh :
    ∀ (rest : List Char) (c0 : Char) (v : Int), (∀ d ∈ rest, ValidChar d) →
      Good (addNode (Node.mk (fun _ => none) c0 0 false) rest v) := by
  intro rest
  induction rest with
  | nil =>
    intro c0 v _
    rw [addNode_nil]
    refine good_mk_of (Or.inl rfl) ?_
    intro i m hc
    simp at hc
  | cons e rest2 ih =>
    intro c0 v hrest
    have he := hrest e (List.mem_cons_self e rest2)
    have hrest2 : ∀ d ∈ rest2, ValidChar d := fun d hd => hrest d (List.mem_cons_of_mem e hd)
    have hlt := key_to_index_lt he
    rw [addNode_cons_none (childAt_noChild c0 0 false _) rest2 v]
    refine good_setChild_some ?_ hlt (ih e v hrest2)
    intro i m hc
    simp at hc

theorem good_addNode :
    ∀ (k : List Char) (n : Node) (v : Int), (∀ c ∈ k, ValidChar c) → Good n →
      Good (addNode n k v) := by
  intro k
  induction k with
  | nil =>
    intro n v _ hg
    rw [addNode_nil]
    refine good_mk_of (Or.inl rfl) ?_
    intro i m hc
    simp only [Node.child_mk] at hc
    exact hg.childGood hc
  | cons c rest ih =>
    intro n v hk hg
    have hc := hk c (List.mem_cons_self c rest)
    have hrest : ∀ d ∈ rest, ValidChar d := fun d hd => hk d (List.mem_cons_of_mem c hd)
    have hlt := key_to_index_lt hc
    cases hch : childAt n (key_to_index c) with
    | none =>
      rw [addNode_cons_none hch]
      exact good_setChild_some (fun i m2 hc2 => hg.childGood hc2) hlt
        (good_addNode_fresh rest c v hrest)
    | some m =>
      rw [addNode_cons_some hch]
      exact good_setChild_some (fun i m2 hc2 => hg.childGood hc2) hlt
        (ih m v hrest (hg.childGood (childAt_to_child hch hlt)))

theorem trieWF_add (t : Trie) (k : List Char) (v : Int) (hwf : TrieWF t) :
    TrieWF (add_to_trie k v t).2 := by
  by_cases hperm : key_permitted k = true
  · have hkv := (key_permitted_iff k).mp hperm
    rw [add_to_trie_permitted hperm]
    intro i m hc
    cases k with
    | nil =>
      rw [addNode_nil] at hc
      simp only [Node.child_mk] at hc
      exact hwf i m hc
    | cons c rest =>
      have hcv := hkv c (List.mem_cons_self c rest)
      have hrestv : ∀ d ∈ rest, ValidChar d := fun d hd => hkv d (List.mem_cons_of_mem c hd)
      have hlt := key_to_index_lt hcv
      cases hch : childAt t.child (key_to_index c) with
      | none =>
        rw [addNode_cons_none hch] at hc
        by_cases hsi : key_to_index c = i.val
        · rw [child_setChild_self_fin _ _ _ i hsi] at hc
          obtain rfl := Option.some_inj.mp hc
          exact good_addNode_fresh rest c v hrestv
        · rw [child_setChild_ne_fin _ _ _ i hsi] at hc
          exact hwf i m hc
      | some m0 =>
        rw [addNode_cons_some hch] at hc
        by_cases hsi : key_to_index c = i.val
        · rw [child_setChild_self_fin _ _ _ i hsi] at hc
          obtain rfl := Option.some_inj.mp hc
          exact good_addNode rest m0 v hrestv (hwf _ _ (childAt_to_child hch hlt))
        · rw [child_setChild_ne_fin _ _ _ i hsi] at hc
          exact hwf i m hc
  · have hp : key_permitted k = false := by simpa using hperm
    rw [add_to_trie_not_permitted hp]
    exact hwf

theorem good_clearValueAt :
    ∀ (k : List Char) (n tn : Node), (∀ c ∈ k, ValidChar c) → Good n →
      walkPath n k = some tn → node_has_children tn = true →
      Good (clearValueAt n k) := by
  intro k
  induction k with
  | nil =>
    intro n tn _ hg hw hnc
    rw [walkPath_nil] at hw
    obtain rfl := Option.some_inj.mp hw
    rw [clearValueAt_nil]
    refine good_mk_of (Or.inr hnc) ?_
    intro i m hc
    simp only [Node.child_mk] at hc
    exact hg.childGood hc
  | cons c rest ih =>
    intro n tn hk hg hw hnc
    have hc := hk c (List.mem_cons_self c rest)
    have hrest : ∀ d ∈ rest, ValidChar d := fun d hd => hk d (List.mem_cons_of_mem c hd)
    have hlt := key_to_index_lt hc
    cases hch : childAt n (key_to_index c) with
    | none => rw [walkPath_cons_none hch] at hw; cases hw
    | some m =>
      rw [walkPath_cons_some hch] at hw
      rw [clearValueAt_cons_some hch]
      exact good_setChild_some (fun i m2 hc2 => hg.childGood hc2) hlt
        (ih m tn hrest (hg.childGood (childAt_to_child hch hlt)) hw hnc)

theorem good_clearBelow :
    ∀ (pre : List Char) (n anc : Node) (s : Nat), (∀ c ∈ pre, ValidChar c) → Good n →
      walkPath n pre = some anc →
      (anc.hasValue = true ∨ node_has_multiple_children anc = true) →
      Good (clearBelow n pre s) := by
  intro pre
  induction pre with
  | nil =>
    intro n anc s _ hg hw hlb
    rw [walkPath_nil] at hw
    obtain rfl := Option.some_inj.mp hw
    rw [clearBelow_nil]
    refine good_mk_of ?_ ?_
    · rcases hlb with hv | hmulti
      · exact Or.inl (by rw [hasValue_setChild]; exact hv)
      · exact Or.inr (has_children_setChild_of_multiple hmulti s)
    · intro i m hc
      by_cases hsi : s = i.val
      · rw [child_setChild_self_fin _ _ _ i hsi] at hc
        cases hc
      · rw [child_setChild_ne_fin _ _ _ i hsi] at hc
        exact hg.childGood hc
  | cons c pre2 ih =>
    intro n anc s hk hg hw hlb
    have hc := hk c (List.mem_cons_self c pre2)
    have hpre2 : ∀ d ∈ pre2, ValidChar d := fun d hd => hk d (List.mem_cons_of_mem c hd)
    have hlt := key_to_index_lt hc
    cases hch : childAt n (key_to_index c) with
    | none => rw [walkPath_cons_none hch] at hw; cases hw
    | some m =>
      rw [walkPath_cons_some hch] at hw
      rw [clearBelow_cons_some hch]
      exact good_setChild_some (fun i m2 hc2 => hg.childGood hc2) hlt
        (ih m anc s hpre2 (hg.childGood (childAt_to_child hch hlt)) hw hlb)

theorem trieWF_delete (t : Trie) (k : List Char) (hwf : TrieWF t) :
    TrieWF (delete_from_trie t k).2 := by
  by_cases hperm : key_permitted k = true
  case neg =>
    rw [delete_eq_not_permitted (by simpa using hperm)]
    exact hwf
  case pos =>
  have hkv := (key_permitted_iff k).mp hperm
  cases hscan : delScan t.child k 0 ⟨-1, 0, true⟩ with
  | none =>
    rw [delete_eq_of_scan_none hperm hscan]
    exact hwf
  | some pair =>
    obtain ⟨tn, st⟩ := pair
    obtain ⟨hwalk, hcase⟩ := delScan_spec k t.child 0 ⟨-1, 0, true⟩ tn st hscan
    rw [delete_eq_of_scan_some hperm hscan]
    by_cases hhv : tn.hasValue = true
    case neg =>
      rw [if_pos (by simp [Bool.not_eq_true _ ▸ hhv])]
      exact hwf
    case pos =>
    rw [if_neg (by simp [hhv])]
    by_cases hnc : node_has_children tn = true
    · rw [if_pos hnc]
      intro i m hc
      cases k with
      | nil =>
        rw [clearValueAt_nil] at hc
        simp only [Node.child_mk] at hc
        exact hwf i m hc
      | cons c rest =>
        have hcv := hkv c (List.mem_cons_self c rest)
        have hrestv : ∀ d ∈ rest, ValidChar d := fun d hd => hkv d (List.mem_cons_of_mem c hd)
        have hlt := key_to_index_lt hcv
        cases hch : childAt t.child (key_to_index c) with
        | none => rw [walkPath_cons_none hch] at hwalk; cases hwalk
        | some m0 =>
          rw [walkPath_cons_some hch] at hwalk
          rw [clearValueAt_cons_some hch] at hc
          by_cases hsi : key_to_index c = i.val
          · rw [child_setChild_self_fin _ _ _ i hsi] at hc
            obtain rfl := Option.some_inj.mp hc
            exact good_clearValueAt rest m0 tn hrestv
              (hwf _ _ (childAt_to_child hch hlt)) hwalk hnc
          · rw [child_setChild_ne_fin _ _ _ i hsi] at hc
            exact hwf i m hc
    · rw [if_neg hnc]
      rcases hcase with ⟨p, ⟨hplen, hplb⟩, hafter, hj, hchg, hs⟩ | ⟨hnone, hj, hnil, hrest⟩
      · have hjval : st.j = (p : Int) := by rw [hj]; simp
        have hjnneg : ¬ st.j < 0 := by rw [hjval]; omega
        rw [if_neg hjnneg]
        have htn : st.j.toNat + 1 = p + 1 := by rw [hjval]; omega
        rw [htn]
        obtain ⟨anc, hancw, hancLB⟩ := hplb
        cases k with
        | nil => simp at hplen
        | cons c rest =>
          have hcv := hkv c (List.mem_cons_self c rest)
          have hrestv : ∀ d ∈ rest, ValidChar d :=
            fun d hd => hkv d (List.mem_cons_of_mem c hd)
          have hlt := key_to_index_lt hcv
          have htake : (c :: rest).take (p + 1) = c :: rest.take p := rfl
          cases hch : childAt t.child (key_to_index c) with
          | none => rw [walkPath_cons_none hch] at hwalk; cases hwalk
          | some m0 =>
            rw [htake] at hancw
            rw [walkPath_cons_some hch] at hancw
            intro i m hc
            rw [show List.take (p + 1) (c :: rest) = c :: rest.take p from rfl] at hc
            rw [clearBelow_cons_some hch] at hc
            by_cases hsi : key_to_index c = i.val
            · rw [child_setChild_self_fin _ _ _ i hsi] at hc
              obtain rfl := Option.some_inj.mp hc
              refine good_clearBelow (rest.take p) m0 anc st.s
                (fun d hd => hrestv d (List.take_subset p rest hd))
                (hwf _ _ (childAt_to_child hch hlt)) hancw ?_
              rcases Bool.or_eq_true_iff.mp hancLB with h1 | h2
              · exact Or.inl h1
              · exact Or.inr h2
            · rw [child_setChild_ne_fin _ _ _ i hsi] at hc
              exact hwf i m hc
      · have hjval : st.j = (-1 : Int) := by rw [hj]
        have hjneg : st.j < 0 := by rw [hjval]; omega
        rw [if_pos hjneg]
        intro i m hc
        by_cases hsi : st.s = i.val
        · rw [child_setChild_self_fin _ _ _ i hsi] at hc
          cases hc
        · rw [child_setChild_ne_fin _ _ _ i hsi] at hc
          exact hwf i m hc

/-! ### Every good node supports some stored key -/

theorem charOfIdx_spec : ∀ i : Fin 26, ValidChar (charOfIdx i) ∧
    key_to_index (charOfIdx i) = i.val := by decide

theorem good_exists_value {n : Node} (h : Good n) :
    ∃ p, (∀ c ∈ p, ValidChar c) ∧ ∃ v, lookupNode n p = some v := by
  induction h with
  | mk c k v hv h1 h2 ih =>
    by_cases hhv : hv = true
    · refine ⟨[], by simp, v, ?_⟩
      rw [lookupNode_nil]
      simp [hhv]
    · have hch : node_has_children (Node.mk c k v hv) = true := by
        rcases h1 with h1 | h1
        · exact absurd h1 hhv
        · exact h1
      have hex : ∃ i, (c i).isSome := by
        unfold node_has_children at hch
        rw [decide_eq_true_eq] at hch
        simpa using hch
      obtain ⟨i, hi⟩ := hex
      obtain ⟨m, hm⟩ := Option.isSome_iff_exists.mp hi
      obtain ⟨p, hpv, w, hw⟩ := ih i m hm
      have hchild : childAt (Node.mk c k v hv) (key_to_index (charOfIdx i)) = some m := by
        rw [(charOfIdx_spec i).2, childAt_fin]
        simpa using hm
      refine ⟨charOfIdx i :: p, ?_, w, ?_⟩
      · intro x hx
        rcases List.mem_cons.mp hx with rfl | hx2
        · exact (charOfIdx_spec i).1
        · exact hpv x hx2
      · rw [lookupNode_cons_some hchild]
        exact hw

theorem destroy_ok_of_no_children {t : Trie} (h : ∀ i, t.child.child i = none) :
    destroy_trie_assert_ok t = true := by
  unfold destroy_trie_assert_ok
  rw [List.all_eq_true]
  intro i _
  rw [h i]
  rfl

theorem no_children_of_empty (t : Trie) (hwf : TrieWF t)
    (hempty : ∀ k2, ValidKey k2 → lookup_in_trie t k2 = none) :
    ∀ i, t.child.child i = none := by
  intro i
  by_contra hne
  obtain ⟨m, hm⟩ := Option.ne_none_iff_exists.mp hne
  have hg : Good m := hwf i m hm.symm
  obtain ⟨p, hpv, w, hw⟩ := good_exists_value hg
  have hkey : ValidKey (charOfIdx i :: p) := by
    constructor
    · simp
    · intro x hx
      rcases List.mem_cons.mp hx with rfl | hx2
      · exact (charOfIdx_spec i).1
      · exact hpv x hx2
  have hchild : childAt t.child (key_to_index (charOfIdx i)) = some m := by
    rw [(charOfIdx_spec i).2, childAt_fin]
    exact hm.symm
  have hemp := hempty (charOfIdx i :: p) hkey
  rw [lookup_in_trie_permitted ((key_permitted_iff _).mpr hkey.2),
    lookupNode_cons_some hchild, hw] at hemp
  cases hemp

theorem trieWF_create : TrieWF create_trie := by
  intro i m hc
  simp [create_trie, zeroNode] at hc

theorem trieWF_runTrie : ∀ (ops : List Op) (t : Trie), TrieWF t → TrieWF (runTrie t ops) := by
  intro ops
  induction ops with
  | nil => intro t h; exact h
  | cons op rest ih =>
    intro t h
    cases op with
    | ins k v => exact ih _ (trieWF_add t k v h)
    | del k => exact ih _ (trieWF_delete t k h)

/-! ### Pointwise behavior of the operations through the public API -/

theorem insert_lookup_pointwise (t : Trie) (k : List Char) (v : Int) (hk : ValidKey k)
    (k2 : List Char) (hk2 : ValidKey k2) :
    lookup_in_trie (add_to_trie k v t).2 k2 =
      if k2 = k then some v else lookup_in_trie t k2 := by
  obtain ⟨hkne, hkv⟩ := hk
  obtain ⟨hk2ne, hk2v⟩ := hk2
  rw [add_to_trie_permitted ((key_permitted_iff k).mpr hkv),
    lookup_in_trie_permitted ((key_permitted_iff k2).mpr hk2v)]
  by_cases h : k2 = k
  · rw [if_pos h, h]
    exact lookupNode_addNode_self k t.child v hkv
  · rw [if_neg h, lookup_in_trie_permitted ((key_permitted_iff k2).mpr hk2v)]
    exact lookupNode_addNode_ne k k2 t.child v hkv hk2v h

theorem delete_lookup_pointwise (t : Trie) (k : List Char) (hk : ValidKey k)
    (k2 : List Char) (hk2 : ValidKey k2) :
    lookup_in_trie (delete_from_trie t k).2 k2 =
      if k2 = k then none else lookup_in_trie t k2 := by
  obtain ⟨hkne, hkv⟩ := hk
  obtain ⟨hk2ne, hk2v⟩ := hk2
  rw [lookup_in_trie_permitted ((key_permitted_iff k2).mpr hk2v),
    delete_lookupNode t k hkne hkv k2 hk2v]
  by_cases h : k2 = k
  · rw [if_pos h, if_pos h]
  · rw [if_neg h, if_neg h, lookup_in_trie_permitted ((key_permitted_iff k2).mpr hk2v)]

theorem lookup_create (k : List Char) (hk : k ≠ []) :
    lookup_in_trie create_trie k = none := by
  cases k with
  | nil => exact absurd rfl hk
  | cons c rest =>
    by_cases hperm : key_permitted (c :: rest) = true
    · rw [lookup_in_trie_permitted hperm]
      exact lookupNode_cons_none (childAt_noChild (Char.ofNat 0) 0 false _) rest
    · rw [lookup_in_trie_not_permitted (by simpa using hperm)]

/-! ### Refinement: the trie tracks the abstract finite map -/

theorem runTrie_refines :
    ∀ (ops : List Op) (t : Trie) (mp : List Char → Option Int),
      (∀ op ∈ ops, ValidKey (opkey op)) →
      (∀ k2, ValidKey k2 → lookup_in_trie t k2 = mp k2) →
      ∀ k2, ValidKey k2 → lookup_in_trie (runTrie t ops) k2 = runSpec mp ops k2 := by
  intro ops
  induction ops with
  | nil =>
    intro t mp _ hsim k2 hk2
    exact hsim k2 hk2
  | cons op rest ih =>
    intro t mp hops hsim k2 hk2
    have hrestops : ∀ op2 ∈ rest, ValidKey (opkey op2) :=
      fun op2 hop2 => hops op2 (List.mem_cons_of_mem op hop2)
    cases op with
    | ins k v =>
      have hk : ValidKey k := hops _ (List.mem_cons_self _ _)
      show lookup_in_trie (runTrie (add_to_trie k v t).2 rest) k2
        = runSpec (specStep mp (Op.ins k v)) rest k2
      refine ih (add_to_trie k v t).2 (specStep mp (Op.ins k v)) hrestops ?_ k2 hk2
      intro k3 hk3
      rw [insert_lookup_pointwise t k v hk k3 hk3]
      show (if k3 = k then some v else lookup_in_trie t k3) = if k3 = k then some v else mp k3
      by_cases h3 : k3 = k
      · rw [if_pos h3, if_pos h3]
      · rw [if_neg h3, if_neg h3]
        exact hsim k3 hk3
    | del k =>
      have hk : ValidKey k := hops _ (List.mem_cons_self _ _)
      show lookup_in_trie (runTrie (delete_from_trie t k).2 rest) k2
        = runSpec (specStep mp (Op.del k)) rest k2
      refine ih (delete_from_trie t k).2 (specStep mp (Op.del k)) hrestops ?_ k2 hk2
      intro k3 hk3
      rw [delete_lookup_pointwise t k hk k3 hk3]
      show (if k3 = k then none else lookup_in_trie t k3) = if k3 = k then none else mp k3
      by_cases h3 : k3 = k
      · rw [if_pos h3, if_pos h3]
      · rw [if_neg h3, if_neg h3]
        exact hsim k3 hk3

theorem lookup_none_of_no_children {t : Trie} (h : ∀ i, (t.child.child i).isNone = true)
    (k2 : List Char) (hk2 : k2 ≠ []) : lookup_in_trie t k2 = none := by
  cases k2 with
  | nil => exact absurd rfl hk2
  | cons c rest =>
    by_cases hperm : key_permitted (c :: rest) = true
    · rw [lookup_in_trie_permitted hperm]
      refine lookupNode_cons_none ?_ rest
      unfold childAt
      split
      · exact Option.isNone_iff_eq_none.mp (h _)
      · rfl
    · rw [lookup_in_trie_not_permitted (by simpa using hperm)]

/-! ### The claims -/

/-- C1: for every store and every valid stored key `k`, delete of `k`
leaves every other valid key intact: a lookup of any valid `k2 ≠ k`
returns the same result after the delete as before it (so sibling paths
and longer keys extending `k` survive). -/
theorem C1_delete_frame (t : Trie) (k : List Char) (v : Int) (hk : ValidKey k)
    (_hstored : lookup_in_trie t k = some v)
    (k2 : List Char) (hk2 : ValidKey k2) (hne : k2 ≠ k) :
    lookup_in_trie (delete_from_trie t k).2 k2 = lookup_in_trie t k2 := by
  rw [delete_lookup_pointwise t k hk k2 hk2, if_neg hne]

/-- C1 witness: in the store holding aa, ab, ac (and with abc extending
ab), deleting ab preserves the lookups of the sibling aa and of the
extension abc. -/
theorem C1_delete_frame_witness :
    lookup_in_trie
        (delete_from_trie
          (add_to_trie ['a', 'b', 'c'] 4
            (add_to_trie ['a', 'c'] 3
              (add_to_trie ['a', 'b'] 2
                (add_to_trie ['a', 'a'] 1 create_trie).2).2).2).2
          ['a', 'b']).2 ['a', 'a'] =
      lookup_in_trie
        (add_to_trie ['a', 'b', 'c'] 4
          (add_to_trie ['a', 'c'] 3
            (add_to_trie ['a', 'b'] 2
              (add_to_trie ['a', 'a'] 1 create_trie).2).2).2).2 ['a', 'a'] ∧
    lookup_in_trie
        (delete_from_trie
          (add_to_trie ['a', 'b', 'c'] 4
            (add_to_trie ['a', 'c'] 3
              (add_to_trie ['a', 'b'] 2
                (add_to_trie ['a', 'a'] 1 create_trie).2).2).2).2
          ['a', 'b']).2 ['a', 'b', 'c'] =
      lookup_in_trie
        (add_to_trie ['a', 'b', 'c'] 4
          (add_to_trie ['a', 'c'] 3
            (add_to_trie ['a', 'b'] 2
              (add_to_trie ['a', 'a'] 1 create_trie).2).2).2).2 ['a', 'b', 'c'] :=
  ⟨C1_delete_frame _ ['a', 'b'] 2 (by decide) (by decide) ['a', 'a'] (by decide) (by decide),
   C1_delete_frame _ ['a', 'b'] 2 (by decide) (by decide) ['a', 'b', 'c'] (by decide)
     (by decide)⟩

/-- C2: for every store, valid key `k` and value `v`, insert succeeds and
a subsequent lookup of `k` returns `v`; since the store is arbitrary this
holds whatever was previously bound to `k`, and a later insert under the
same key overwrites (last-write-wins). -/
theorem C2_insert_roundtrip (t : Trie) (k : List Char) (v : Int) (hk : ValidKey k) :
    (add_to_trie k v t).1 = true ∧
    lookup_in_trie (add_to_trie k v t).2 k = some v ∧
    ∀ v2 : Int, lookup_in_trie (add_to_trie k v2 (add_to_trie k v t).2).2 k = some v2 := by
  refine ⟨?_, ?_, ?_⟩
  · rw [add_to_trie_permitted ((key_permitted_iff k).mpr hk.2)]
  · rw [insert_lookup_pointwise t k v hk k hk, if_pos rfl]
  · intro v2
    rw [insert_lookup_pointwise _ k v2 hk k hk, if_pos rfl]

/-- C2 witness: insert ab with 7 and then overwrite with 99 on the fresh
store. -/
theorem C2_insert_roundtrip_witness :
    (add_to_trie ['a', 'b'] 7 create_trie).1 = true ∧
    lookup_in_trie (add_to_trie ['a', 'b'] 7 create_trie).2 ['a', 'b'] = some 7 ∧
    lookup_in_trie
      (add_to_trie ['a', 'b'] 99 (add_to_trie ['a', 'b'] 7 create_trie).2).2
      ['a', 'b'] = some 99 := by
  obtain ⟨h1, h2, h3⟩ := C2_insert_roundtrip create_trie ['a', 'b'] 7 (by decide)
  exact ⟨h1, h2, h3 99⟩

/-- C3: delete of a stored valid key returns success, a subsequent lookup
of the key reports not-found, and re-inserting the key afterwards with a
new value makes lookup return that new value. -/
theorem C3_delete_removes (t : Trie) (k : List Char) (v : Int) (hk : ValidKey k)
    (hstored : lookup_in_trie t k = some v) :
    (delete_from_trie t k).1 = true ∧
    lookup_in_trie (delete_from_trie t k).2 k = none ∧
    ∀ v2 : Int, lookup_in_trie (add_to_trie k v2 (delete_from_trie t k).2).2 k = some v2 := by
  refine ⟨?_, ?_, ?_⟩
  · rw [delete_fst_true_iff t k hk.2]
    rw [lookup_in_trie_permitted ((key_permitted_iff k).mpr hk.2)] at hstored
    rw [hstored]
    simp
  · rw [delete_lookup_pointwise t k hk k hk, if_pos rfl]
  · intro v2
    rw [insert_lookup_pointwise _ k v2 hk k hk, if_pos rfl]

/-- C3 witness: insert aa with 1, delete aa, re-insert with 99. -/
theorem C3_delete_removes_witness :
    (delete_from_trie (add_to_trie ['a', 'a'] 1 create_trie).2 ['a', 'a']).1 = true ∧
    lookup_in_trie
      (delete_from_trie (add_to_trie ['a', 'a'] 1 create_trie).2 ['a', 'a']).2
      ['a', 'a'] = none ∧
    lookup_in_trie
      (add_to_trie ['a', 'a'] 99
        (delete_from_trie (add_to_trie ['a', 'a'] 1 create_trie).2 ['a', 'a']).2).2
      ['a', 'a'] = some 99 := by
  obtain ⟨h1, h2, h3⟩ :=
    C3_delete_removes (add_to_trie ['a', 'a'] 1 create_trie).2 ['a', 'a'] 1
      (by decide) (by decide)
  exact ⟨h1, h2, h3 99⟩

/-- C4 counterexample: the claim says insert of the empty key fails
without mutating the store, but `key_permitted` accepts the empty string
(its loop body never runs), so insert of the empty key on the fresh store
returns success and mutates the store: the empty-key lookup changes from
not-found to the stored value. -/
theorem C4_counterexample :
    (add_to_trie [] 1 create_trie).1 = true ∧
    lookup_in_trie (add_to_trie [] 1 create_trie).2 [] = some 1 ∧
    lookup_in_trie create_trie [] = none := by
  decide

/-- C4 amended: every operation rejects a key containing a character
outside the range a to z by returning failure/not-found with the store left
unmutated; the empty key, however, is not rejected: insert of the empty
key succeeds and stores the value on the root node, where the empty-key
lookup then finds it. -/
theorem C4_invalid_key_rejection (t : Trie) (k : List Char) (v : Int)
    (hbad : ¬ ∀ c ∈ k, ValidChar c) :
    (add_to_trie k v t = (false, t) ∧ lookup_in_trie t k = none ∧
      delete_from_trie t k = (false, t)) ∧
    ((add_to_trie [] v t).1 = true ∧
      lookup_in_trie (add_to_trie [] v t).2 [] = some v) := by
  have hb : key_permitted k = false :=
    Bool.eq_false_iff.mpr fun hp => hbad ((key_permitted_iff k).mp hp)
  have hpe : key_permitted ([] : List Char) = true := rfl
  refine ⟨⟨add_to_trie_not_permitted hb, lookup_in_trie_not_permitted hb,
    delete_eq_not_permitted hb⟩, ?_, ?_⟩
  · rw [add_to_trie_permitted hpe]
  · rw [add_to_trie_permitted hpe, lookup_in_trie_permitted hpe]
    rw [addNode_nil, lookupNode_nil]
    simp

/-- C4 witness: the key Ab contains an uppercase character and is
rejected by all three operations on the fresh store. -/
theorem C4_invalid_key_rejection_witness :
    (add_to_trie ['A', 'b'] 1 create_trie = (false, create_trie) ∧
      lookup_in_trie create_trie ['A', 'b'] = none ∧
      delete_from_trie create_trie ['A', 'b'] = (false, create_trie)) ∧
    ((add_to_trie [] 1 create_trie).1 = true ∧
      lookup_in_trie (add_to_trie [] 1 create_trie).2 [] = some 1) :=
  C4_invalid_key_rejection create_trie ['A', 'b'] 1 (by decide)

/-- C5: delete of a valid key that is not stored (missing path or
prefix-only path without the value flag both make the lookup report
not-found) returns failure and leaves the store unchanged; consequently a
second delete of the same key after any first delete is a failing no-op. -/
theorem C5_delete_absent (t : Trie) (k : List Char) (hk : ValidKey k)
    (habsent : lookup_in_trie t k = none) :
    delete_from_trie t k = (false, t) ∧
    ∀ t0 : Trie, delete_from_trie (delete_from_trie t0 k).2 k
      = (false, (delete_from_trie t0 k).2) := by
  constructor
  · apply delete_not_found_eq t k hk.2
    rwa [lookup_in_trie_permitted ((key_permitted_iff k).mpr hk.2)] at habsent
  · intro t0
    apply delete_not_found_eq _ k hk.2
    have hp := delete_lookup_pointwise t0 k hk k hk
    rw [if_pos rfl] at hp
    rwa [lookup_in_trie_permitted ((key_permitted_iff k).mpr hk.2)] at hp

/-- C5 witness: deleting ab from the fresh store fails and leaves it
unchanged, and the double-delete of aa after inserting it is a no-op. -/
theorem C5_delete_absent_witness :
    delete_from_trie create_trie ['a', 'a'] = (false, create_trie) ∧
    delete_from_trie
        (delete_from_trie (add_to_trie ['a', 'a'] 1 create_trie).2 ['a', 'a']).2
        ['a', 'a'] =
      (false,
        (delete_from_trie (add_to_trie ['a', 'a'] 1 create_trie).2 ['a', 'a']).2) := by
  obtain ⟨h1, h2⟩ :=
    C5_delete_absent create_trie ['a', 'a'] (by decide) (by decide)
  exact ⟨h1, h2 (add_to_trie ['a', 'a'] 1 create_trie).2⟩

/-- C6: the structural invariant (every node below the root either stores
a value or has at least one child, at every depth) is preserved by insert
and by delete, successful or failed, on any store satisfying it; lookup
returns no store and mutates nothing. -/
theorem C6_invariant_preserved (t : Trie) (hwf : TrieWF t) (k : List Char) (v : Int) :
    TrieWF (add_to_trie k v t).2 ∧ TrieWF (delete_from_trie t k).2 :=
  ⟨trieWF_add t k v hwf, trieWF_delete t k hwf⟩

/-- C6 witness: the invariant after inserting ab into the fresh store and
after the (failing) delete of ab on the fresh store. -/
theorem C6_invariant_preserved_witness :
    TrieWF (add_to_trie ['a', 'b'] 5 create_trie).2 ∧
    TrieWF (delete_from_trie create_trie ['a', 'b']).2 :=
  C6_invariant_preserved create_trie trieWF_create ['a', 'b'] 5

/-- C7: for a stored single-character valid key whose terminal node has no
children (the formula on the walk result states exactly that), delete
returns success, clears the root child slot for that letter (the freed
node is detached there), and a subsequent lookup of the key reports
not-found.  In a single-key trie this frees the whole chain down to the
root child slot. -/
theorem C7_single_char_delete (t : Trie) (c : Char) (v : Int) (hc : ValidChar c)
    (hstored : lookup_in_trie t [c] = some v)
    (hnoch : (walkPath t.child [c]).elim false (fun tn => !node_has_children tn) = true) :
    (delete_from_trie t [c]).1 = true ∧
    childAt (delete_from_trie t [c]).2.child (key_to_index c) = none ∧
    lookup_in_trie (delete_from_trie t [c]).2 [c] = none := by
  have hk : ValidKey [c] := ⟨by simp, fun x hx => (List.mem_singleton.mp hx) ▸ hc⟩
  have hperm := (key_permitted_iff [c]).mpr hk.2
  have hlt := key_to_index_lt hc
  refine ⟨?_, ?_, ?_⟩
  · rw [delete_fst_true_iff t [c] hk.2]
    rw [lookup_in_trie_permitted hperm] at hstored
    rw [hstored]
    simp
  · cases hscan : delScan t.child [c] 0 ⟨-1, 0, true⟩ with
    | none =>
      exfalso
      have hwn := (delScan_eq_none_iff _ _ _ _).mp hscan
      rw [lookup_in_trie_permitted hperm, lookupNode_eq_walk, hwn] at hstored
      cases hstored
    | some pair =>
      obtain ⟨tn, st⟩ := pair
      obtain ⟨hwalk, hcase⟩ := delScan_spec [c] t.child 0 ⟨-1, 0, true⟩ tn st hscan
      have hhv : tn.hasValue = true := by
        rw [lookup_in_trie_permitted hperm, lookupNode_eq_walk, hwalk] at hstored
        by_contra hf
        have hf2 : tn.hasValue = false := by simpa using hf
        simp [hf2] at hstored
      rw [hwalk] at hnoch
      have hncf : node_has_children tn = false := by simpa using hnoch
      rcases hcase with ⟨p, ⟨hplen, _⟩, _⟩ | ⟨_, hj, _, hrest⟩
      · simp only [List.length_cons, List.length_nil] at hplen
        omega
      · have hjval : st.j = (-1 : Int) := by rw [hj]
        have hsv : st.s = key_to_index c := by
          obtain ⟨_, hs2⟩ := hrest (by simp)
          rw [hs2]
          rfl
        rw [delete_eq_of_scan_some hperm hscan, if_neg (by simp [hhv]),
          if_neg (by simp [hncf]), if_pos (by rw [hjval]; omega), hsv]
        exact childAt_setChild_self t.child (key_to_index c) none hlt
  · rw [delete_lookup_pointwise t [c] hk [c] hk, if_pos rfl]

/-- C7 witness: the single-key store holding only the key a. -/
theorem C7_single_char_delete_witness :
    (delete_from_trie (add_to_trie ['a'] 5 create_trie).2 ['a']).1 = true ∧
    childAt (delete_from_trie (add_to_trie ['a'] 5 create_trie).2 ['a']).2.child
      (key_to_index 'a') = none ∧
    lookup_in_trie (delete_from_trie (add_to_trie ['a'] 5 create_trie).2 ['a']).2 ['a']
      = none :=
  C7_single_char_delete (add_to_trie ['a'] 5 create_trie).2 'a' 5
    (by decide) (by decide) (by decide)

/-- C8: on a store reached from create by any operation sequence in which
every inserted key has been removed again (no valid key is stored any
more), the assertion loop of destroy holds: every root child slot is
NULL, so the assertion failure branch is unreachable. -/
theorem C8_destroy_assertion (ops : List Op) (t : Trie)
    (ht : t = runTrie create_trie ops)
    (hempty : ∀ k2, ValidKey k2 → lookup_in_trie t k2 = none) :
    destroy_trie_assert_ok t = true := by
  have hwf : TrieWF t := by
    rw [ht]
    exact trieWF_runTrie ops create_trie trieWF_create
  exact destroy_ok_of_no_children (no_children_of_empty t hwf hempty)

/-- C8 witness: insert the key a, delete it again; the destroy assertion
holds on the resulting store. -/
theorem C8_destroy_assertion_witness :
    destroy_trie_assert_ok (runTrie create_trie [Op.ins ['a'] 1, Op.del ['a']]) = true :=
  C8_destroy_assertion [Op.ins ['a'] 1, Op.del ['a']] _ rfl
    (fun k2 hk2 => lookup_none_of_no_children (by decide) k2 hk2.1)

/-- C9: insert never removes or detaches a node: every slot path that
reaches a node before the insert still reaches one after it, and every
valid key other than the inserted one looks up to exactly the same result
as before. -/
theorem C9_insert_frame (t : Trie) (k : List Char) (v : Int) (hk : ValidKey k) :
    (∀ p : List (Fin 26), (walkIdx t.child p).isSome = true →
      (walkIdx (add_to_trie k v t).2.child p).isSome = true) ∧
    ∀ k2, ValidKey k2 → k2 ≠ k →
      lookup_in_trie (add_to_trie k v t).2 k2 = lookup_in_trie t k2 := by
  constructor
  · intro p hp
    rw [add_to_trie_permitted ((key_permitted_iff k).mpr hk.2)]
    exact walkIdx_addNode p k t.child v hk.2 hp
  · intro k2 hk2 hne
    rw [insert_lookup_pointwise t k v hk k2 hk2, if_neg hne]

/-- C9 witness: inserting ab into the store holding aa keeps the node of
the first letter a and the lookup of aa. -/
theorem C9_insert_frame_witness :
    (walkIdx (add_to_trie ['a', 'b'] 7 (add_to_trie ['a', 'a'] 1 create_trie).2).2.child
      [(0 : Fin 26)]).isSome = true ∧
    lookup_in_trie (add_to_trie ['a', 'b'] 7 (add_to_trie ['a', 'a'] 1 create_trie).2).2
        ['a', 'a'] =
      lookup_in_trie (add_to_trie ['a', 'a'] 1 create_trie).2 ['a', 'a'] := by
  obtain ⟨h1, h2⟩ :=
    C9_insert_frame (add_to_trie ['a', 'a'] 1 create_trie).2 ['a', 'b'] 7 (by decide)
  exact ⟨h1 [(0 : Fin 26)] (by decide), h2 ['a', 'a'] (by decide) (by decide)⟩

/-- C10: starting from create, any finite sequence of inserts and deletes
on valid keys makes the store behave exactly as the finite map built by
the specification-side model: binding on insert, unbinding on delete, so
a lookup returns the value of the most recent insert of the key not
followed by a delete of it, and not-found otherwise (in particular every
lookup on the fresh store reports not-found). -/
theorem C10_refines_map (ops : List Op) (hops : ∀ op ∈ ops, ValidKey (opkey op))
    (k : List Char) (hk : ValidKey k) :
    lookup_in_trie (runTrie create_trie ops) k = runSpec (fun _ => none) ops k := by
  refine runTrie_refines ops create_trie (fun _ => none) hops ?_ k hk
  intro k2 hk2
  exact lookup_create k2 hk2.1

/-- C10 witness: a sequence with an overwrite and a delete, checked on
the deleted key aa and the surviving key ab. -/
theorem C10_refines_map_witness :
    lookup_in_trie
        (runTrie create_trie
          [Op.ins ['a', 'a'] 1, Op.ins ['a', 'b'] 2, Op.ins ['a', 'a'] 5,
            Op.del ['a', 'a']])
        ['a', 'b'] =
      runSpec (fun _ => none)
        [Op.ins ['a', 'a'] 1, Op.ins ['a', 'b'] 2, Op.ins ['a', 'a'] 5,
          Op.del ['a', 'a']]
        ['a', 'b'] ∧
    lookup_in_trie
        (runTrie create_trie
          [Op.ins ['a', 'a'] 1, Op.ins ['a', 'b'] 2, Op.ins ['a', 'a'] 5,
            Op.del ['a', 'a']])
        ['a', 'a'] =
      runSpec (fun _ => none)
        [Op.ins ['a', 'a'] 1, Op.ins ['a', 'b'] 2, Op.ins ['a', 'a'] 5,
          Op.del ['a', 'a']]
        ['a', 'a'] :=
  ⟨C10_refines_map
      [Op.ins ['a', 'a'] 1, Op.ins ['a', 'b'] 2, Op.ins ['a', 'a'] 5, Op.del ['a', 'a']]
      (by decide) ['a', 'b'] (by decide),
   C10_refines_map
      [Op.ins ['a', 'a'] 1, Op.ins ['a', 'b'] 2, Op.ins ['a', 'a'] 5, Op.del ['a', 'a']]
      (by decide) ['a', 'a'] (by decide)⟩
